import Mathlib

/-!
Verification of the constellation-detection core of the Celestia repository.

The embedding follows `checkForConstellations` in `src/App.tsx` (adjacency
graph over body positions with threshold 180, DFS connected components of
size at least 3, then per-cluster reconciliation against the existing
constellation list) and `generateConstellationName` in the gemini service.

Modelling conventions:
* JavaScript numbers are embedded as rationals; `Math.hypot d1 d2 < 180` is
  embedded as the equivalent comparison `d1^2 + d2^2 < 180^2`.
* `uuidv4()` identity allocation is embedded as a threaded natural-number
  counter `nextId`; freshness of generated ids is expressed by the
  hypothesis that all existing ids are below the counter.
* `Date.now()` timestamps, and the asynchronous naming oracle, are inputs.
* `Math.random()` draws are explicit numeric inputs.
-/

set_option allowUnsafeReducibility true in
attribute [semireducible] Rat.mul Rat.add Rat.sub

namespace Celestia

/-- `CelestialType` enum from `src/types.ts`. -/
inductive CelestialType where
  | STAR
  | NEBULA
  | BLACK_HOLE
  | GALAXY
  | ANOMALY
deriving DecidableEq

/-- 2D position in the normalized coordinate space, from `src/types.ts`. -/
structure Coordinates where
  x : ℚ
  y : ℚ
deriving DecidableEq

/-- `CelestialBody` from `src/types.ts`. -/
structure CelestialBody where
  id : String
  name : String
  type : CelestialType
  description : String
  distanceLightYears : ℚ
  spectralClass : Option String
  temperatureK : Option ℚ
  coordinates : Coordinates
  color : String
  discoveryDate : ℕ
  analyzed : Bool
deriving DecidableEq

/-- `GameResources` from `src/types.ts`. -/
structure GameResources where
  starlight : ℚ
  data : ℚ
  focus : ℚ
deriving DecidableEq

/-- `Constellation` from `src/types.ts`; the `uuidv4()` id is modelled as a
natural number drawn from a fresh counter. -/
structure Constellation where
  id : ℕ
  name : String
  starIds : List String
  discoveredAt : ℕ
deriving DecidableEq

/-- A "Constellation Charted" discovery event: the log entry together with
the resource reward granted in the creation branch of
`checkForConstellations` (`src/App.tsx` lines 180-188). -/
structure DiscoveryEvent where
  name : String
  rewardStarlight : ℕ
  rewardData : ℕ
deriving DecidableEq

/-! ## Spatial graph builder (`src/App.tsx` lines 113-155) -/

/-- `MAX_DIST` from `src/App.tsx` line 116. -/
def MAX_DIST : ℚ := 180

/-- Squared Euclidean distance between two positions. -/
def distSq (a b : Coordinates) : ℚ :=
  (a.x - b.x) ^ 2 + (a.y - b.y) ^ 2

/-- The proximity test `Math.hypot(dx, dy) < MAX_DIST` from line 122-123,
expressed on squares (both sides are nonnegative). -/
def withinMaxDist (a b : Coordinates) : Bool :=
  decide (distSq a b < MAX_DIST ^ 2)

/-- The adjacency relation built by the pair loop in lines 118-128: ids `a`
and `b` are adjacent when two distinct bodies carrying them lie strictly
closer than `MAX_DIST`.  (The source loops over index pairs `i < j` and
inserts both directions; with distinct ids per body this is the same
relation.) -/
def adjacentB (stars : List CelestialBody) (a b : String) : Bool :=
  stars.any fun s1 => stars.any fun s2 =>
    a == s1.id && b == s2.id && !(a == b) && withinMaxDist s1.coordinates s2.coordinates

/-- Neighbour list of an id in the adjacency graph (`adj.get`). -/
def neighbors (stars : List CelestialBody) (a : String) : List String :=
  (stars.map (·.id)).filter (fun b => adjacentB stars a b)

/-- One pass of the inner neighbour loop of the DFS (lines 144-149): push
every not-yet-visited neighbour, marking it visited.  State is
`(visited, stack)`. -/
def dfsPush (vs : List String × List String) (ns : List String) :
    List String × List String :=
  ns.foldl (fun p n => if n ∈ p.1 then p else (n :: p.1, n :: p.2)) vs

/-- The DFS `while` loop of lines 140-150.  The head of the stack list is
the top of the source's array stack; fuel bounds the number of iterations
(each iteration pops one element, and each id is pushed at most once, so
`stars.length + 1` fuel always suffices). -/
def dfsAux (stars : List CelestialBody) :
    ℕ → List String → List String → List String → List String × List String
  | 0, _, visited, cluster => (cluster, visited)
  | _ + 1, [], visited, cluster => (cluster, visited)
  | fuel + 1, current :: stack, visited, cluster =>
      let vs := dfsPush (visited, stack) (neighbors stars current)
      dfsAux stars fuel vs.2 vs.1 (cluster ++ [current])

/-- The component loop of lines 134-155: start a DFS at every unvisited
body and keep the resulting component when it has at least 3 members. -/
def findClustersAux (stars : List CelestialBody) :
    List CelestialBody → List String → List (List String) → List (List String)
  | [], _, acc => acc
  | s :: rest, visited, acc =>
      if s.id ∈ visited then findClustersAux stars rest visited acc
      else
        let r := dfsAux stars (stars.length + 1) [s.id] (s.id :: visited) []
        findClustersAux stars rest r.2
          (if 3 ≤ r.1.length then acc ++ [r.1] else acc)

/-- Steps 1-2 of `checkForConstellations`: the clusters (connected
components of size at least 3) of the current body list. -/
def findClusters (stars : List CelestialBody) : List (List String) :=
  findClustersAux stars stars [] []

/-! ## Constellation reconciliation (`src/App.tsx` lines 157-225) -/

/-- Accumulated reconciliation state while the cluster loop runs:
the working constellation list (`updatedConstellations`), the identity
counter, the emitted discovery events, and the `hasChanges` flag. -/
structure RecState where
  constellations : List Constellation
  nextId : ℕ
  events : List DiscoveryEvent
  hasChanges : Bool
deriving DecidableEq

/-- The `overlaps` filter of lines 163-165: existing constellations sharing
at least one member id with the cluster. -/
def overlapsOf (cs : List Constellation) (cluster : List String) :
    List Constellation :=
  cs.filter (fun c => c.starIds.any (fun id => cluster.contains id))

/-- Insertion-order union as produced by the JavaScript `Set` constructor:
append an element unless it is already present. -/
def insertUnique (acc : List String) (x : String) : List String :=
  if x ∈ acc then acc else acc ++ [x]

/-- First-occurrence deduplication, the contents of
`Array.from(new Set(l))`. -/
def dedupFirst (l : List String) : List String :=
  l.foldl insertUnique []

/-- The `overlaps.length === 0` branch (lines 167-189): allocate a fresh
identity, obtain a name from the naming oracle, append the new
constellation, and emit the discovery event with its reward. -/
def createBranch (oracle : ℕ → String) (now : ℕ) (st : RecState)
    (cluster : List String) : RecState :=
  let name := oracle cluster.length
  { constellations :=
      st.constellations ++ [⟨st.nextId, name, cluster, now⟩]
    nextId := st.nextId + 1
    events :=
      st.events ++ [⟨name, 50 + cluster.length * 10, 20 + cluster.length * 5⟩]
    hasChanges := true }

/-- The overlap branch (lines 190-218): when the cluster brings new stars
or touches several constellations, union everything into the first
overlapping constellation, remove the other overlapping ones (matched by
id), and flag the change; otherwise leave the state untouched. -/
def mergeBranch (st : RecState) (cluster : List String)
    (primaryC : Constellation) (rest : List Constellation) : RecState :=
  if cluster.any (fun id => !(primaryC.starIds.contains id)) || !rest.isEmpty then
    let mergedIds :=
      dedupFirst (primaryC.starIds ++ cluster ++ rest.flatMap (·.starIds))
    let remaining :=
      st.constellations.filter (fun c => !(rest.any (fun o => o.id == c.id)))
    { st with
      constellations :=
        remaining.map (fun c =>
          if c.id = primaryC.id then { c with starIds := mergedIds } else c)
      hasChanges := true }
  else st

/-- Reconciliation of a single cluster against the working state
(the body of the `for (const cluster of clusters)` loop, lines 161-219). -/
def reconcileCluster (oracle : ℕ → String) (now : ℕ) (st : RecState)
    (cluster : List String) : RecState :=
  match overlapsOf st.constellations cluster with
  | [] => createBranch oracle now st cluster
  | primaryC :: rest => mergeBranch st cluster primaryC rest

/-- `checkForConstellations` (lines 110-225) as a function of its inputs:
the early return below 3 bodies, then the fold of the cluster loop over the
clusters of the body list. -/
def checkForConstellations (oracle : ℕ → String) (now : ℕ) (nextId : ℕ)
    (stars : List CelestialBody) (cs : List Constellation) : RecState :=
  if stars.length < 3 then ⟨cs, nextId, [], false⟩
  else (findClusters stars).foldl (reconcileCluster oracle now) ⟨cs, nextId, [], false⟩

/-! ## State-level effect of a reconciliation call -/

/-- The mutable pieces of component state that `checkForConstellations`
can reach: resources, the body list and the constellation list. -/
structure GameState where
  resources : GameResources
  stars : List CelestialBody
  constellations : List Constellation
deriving DecidableEq

/-- Application of the rewards of the emitted events to the resources
(the `setResources` calls of lines 183-187; no other resource field is
touched by the function). -/
def applyRewards (r : GameResources) (events : List DiscoveryEvent) :
    GameResources :=
  events.foldl
    (fun r e =>
      { r with
        starlight := r.starlight + (e.rewardStarlight : ℚ)
        data := r.data + (e.rewardData : ℚ) })
    r

/-- The full state effect of one `checkForConstellations` call: the
constellation list is replaced by the reconciled one (`setConstellations`,
line 222), rewards are added, and the body list is not written at all
(the function contains no `setStars` call). -/
def runCheck (oracle : ℕ → String) (now : ℕ) (nextId : ℕ) (gs : GameState) :
    GameState × List DiscoveryEvent × ℕ :=
  let r := checkForConstellations oracle now nextId gs.stars gs.constellations
  (⟨applyRewards gs.resources r.events, gs.stars, r.constellations⟩,
   r.events, r.nextId)

/-! ## Basic lemmas about the reconciliation building blocks -/

theorem mem_insertUnique {acc : List String} {y x : String} :
    x ∈ insertUnique acc y ↔ x ∈ acc ∨ x = y := by
  unfold insertUnique
  split <;> rename_i h
  · constructor
    · exact Or.inl
    · rintro (hx | rfl)
      · exact hx
      · exact h
  · simp [List.mem_append]

theorem nodup_insertUnique {acc : List String} (h : acc.Nodup) (y : String) :
    (insertUnique acc y).Nodup := by
  unfold insertUnique
  split <;> rename_i hy
  · exact h
  · simp [List.nodup_append, h, hy]

theorem mem_foldl_insertUnique {l acc : List String} {x : String} :
    x ∈ l.foldl insertUnique acc ↔ x ∈ acc ∨ x ∈ l := by
  induction l generalizing acc with
  | nil => simp
  | cons y t ih =>
      rw [List.foldl_cons, ih, mem_insertUnique]
      simp only [List.mem_cons]
      tauto

theorem nodup_foldl_insertUnique {l acc : List String} (h : acc.Nodup) :
    (l.foldl insertUnique acc).Nodup := by
  induction l generalizing acc with
  | nil => exact h
  | cons y t ih => exact ih (nodup_insertUnique h y)

theorem mem_dedupFirst {l : List String} {x : String} :
    x ∈ dedupFirst l ↔ x ∈ l := by
  unfold dedupFirst
  rw [mem_foldl_insertUnique]
  simp

theorem nodup_dedupFirst (l : List String) : (dedupFirst l).Nodup :=
  nodup_foldl_insertUnique List.nodup_nil

/-- Membership characterization of the `overlaps` filter. -/
theorem mem_overlapsOf {cs : List Constellation} {K : List String}
    {c : Constellation} :
    c ∈ overlapsOf cs K ↔ c ∈ cs ∧ ∃ x ∈ c.starIds, x ∈ K := by
  unfold overlapsOf
  simp [List.mem_filter, List.any_eq_true]

theorem overlapsOf_sublist (cs : List Constellation) (K : List String) :
    (overlapsOf cs K).Sublist cs :=
  List.filter_sublist cs

theorem overlapsOf_eq_nil_iff {cs : List Constellation} {K : List String} :
    overlapsOf cs K = [] ↔ ∀ c ∈ cs, ∀ x ∈ c.starIds, x ∉ K := by
  unfold overlapsOf
  rw [List.filter_eq_nil_iff]
  simp [List.any_eq_true]

/-- Unfolding equation of `reconcileCluster` in the creation case. -/
theorem reconcileCluster_eq_create {oracle : ℕ → String} {now : ℕ}
    {st : RecState} {cluster : List String}
    (h : overlapsOf st.constellations cluster = []) :
    reconcileCluster oracle now st cluster = createBranch oracle now st cluster := by
  unfold reconcileCluster
  rw [h]

/-- Unfolding equation of `reconcileCluster` in the overlap case. -/
theorem reconcileCluster_eq_merge {oracle : ℕ → String} {now : ℕ}
    {st : RecState} {cluster : List String} {p : Constellation}
    {rest : List Constellation}
    (h : overlapsOf st.constellations cluster = p :: rest) :
    reconcileCluster oracle now st cluster = mergeBranch st cluster p rest := by
  unfold reconcileCluster
  rw [h]

/-- The single-overlap, no-new-member case leaves the state untouched. -/
theorem mergeBranch_inactive {st : RecState} {cluster : List String}
    {p : Constellation} (hsub : ∀ x ∈ cluster, x ∈ p.starIds) :
    mergeBranch st cluster p [] = st := by
  have h1 : cluster.any (fun id => !(p.starIds.contains id)) = false := by
    simp only [List.any_eq_false, Bool.not_eq_true']
    intro x hx
    simpa using hsub x hx
  unfold mergeBranch
  rw [h1]
  simp

/-- The active merge case, written out. -/
theorem mergeBranch_active {st : RecState} {cluster : List String}
    {p : Constellation} {rest : List Constellation}
    (h : (cluster.any (fun id => !(p.starIds.contains id)) || !rest.isEmpty) = true) :
    mergeBranch st cluster p rest =
      { st with
        constellations :=
          (st.constellations.filter
              (fun c => !(rest.any (fun o => o.id == c.id)))).map
            (fun c =>
              if c.id = p.id then
                { c with starIds :=
                    dedupFirst (p.starIds ++ cluster ++ rest.flatMap (·.starIds)) }
              else c)
        hasChanges := true } := by
  unfold mergeBranch
  rw [h]
  simp

/-- Distinct ids determine distinct list entries. -/
theorem constellation_id_injOn {cs : List Constellation}
    (h : (cs.map (·.id)).Nodup) :
    ∀ c ∈ cs, ∀ d ∈ cs, c.id = d.id → c = d :=
  List.inj_on_of_nodup_map h

/-- Membership in the merged id list. -/
theorem mem_mergedIds {p : Constellation} {rest : List Constellation}
    {K : List String} {x : String} :
    x ∈ dedupFirst (p.starIds ++ K ++ rest.flatMap (·.starIds)) ↔
      x ∈ p.starIds ∨ x ∈ K ∨ ∃ o ∈ rest, x ∈ o.starIds := by
  rw [mem_dedupFirst]
  simp [List.mem_append, List.mem_flatMap, or_assoc]

/-- The first overlap is an element of the list, and its id does not recur
among the other overlaps. -/
theorem overlaps_head_facts {cs : List Constellation} {K : List String}
    {p : Constellation} {rest : List Constellation}
    (hids : (cs.map (·.id)).Nodup) (h : overlapsOf cs K = p :: rest) :
    p ∈ cs ∧ (∀ o ∈ rest, o ∈ cs) ∧ (∀ o ∈ rest, o.id ≠ p.id) := by
  have hsub : (p :: rest).Sublist cs := h ▸ overlapsOf_sublist cs K
  have hidsub : ((p :: rest).map (·.id)).Sublist (cs.map (·.id)) :=
    List.Sublist.map _ hsub
  have hnodup : ((p :: rest).map (·.id)).Nodup := hidsub.nodup hids
  refine ⟨hsub.mem (List.mem_cons_self p rest),
    fun o ho => hsub.mem (List.mem_cons_of_mem p ho), fun o ho => ?_⟩
  simp only [List.map_cons, List.nodup_cons, List.mem_map] at hnodup
  intro he
  exact hnodup.1 ⟨o, ho, he⟩

/-- Membership characterization of the constellation list produced by an
active merge: the first overlap survives with the merged member list, the
other overlaps disappear, everything else is untouched. -/
theorem mem_mergeBranch_active {st : RecState} {cluster : List String}
    {p : Constellation} {rest : List Constellation} {d : Constellation}
    (hids : (st.constellations.map (·.id)).Nodup)
    (h : overlapsOf st.constellations cluster = p :: rest)
    (hcond : (cluster.any (fun id => !(p.starIds.contains id)) || !rest.isEmpty) = true) :
    (d ∈ (mergeBranch st cluster p rest).constellations ↔
      d = { p with starIds :=
              dedupFirst (p.starIds ++ cluster ++ rest.flatMap (·.starIds)) }
      ∨ (d ∈ st.constellations ∧ d.id ≠ p.id ∧ ∀ o ∈ rest, o.id ≠ d.id)) := by
  obtain ⟨hp, hrest, hrid⟩ := overlaps_head_facts hids h
  rw [mergeBranch_active hcond]
  simp only [List.mem_map, List.mem_filter]
  constructor
  · rintro ⟨c, ⟨hc, hkeep⟩, rfl⟩
    by_cases hcp : c.id = p.id
    · left
      have : c = p := constellation_id_injOn hids c hc p hp hcp
      subst this
      simp [hcp]
    · right
      simp only [if_neg hcp]
      refine ⟨hc, hcp, fun o ho he => ?_⟩
      simp only [Bool.not_eq_true', List.any_eq_false] at hkeep
      exact absurd (by simpa using he) (hkeep o ho)
  · rintro (rfl | ⟨hd, hdp, hdr⟩)
    · refine ⟨p, ⟨hp, ?_⟩, by simp⟩
      simp only [Bool.not_eq_true', List.any_eq_false]
      intro o ho
      simpa using fun he => hrid o ho he
    · refine ⟨d, ⟨hd, ?_⟩, by simp [if_neg hdp]⟩
      simp only [Bool.not_eq_true', List.any_eq_false]
      intro o ho
      simpa using fun he => hdr o ho he

/-- `mergeBranch` never emits events, never allocates an identity. -/
theorem mergeBranch_frame (st : RecState) (cluster : List String)
    (p : Constellation) (rest : List Constellation) :
    (mergeBranch st cluster p rest).events = st.events ∧
      (mergeBranch st cluster p rest).nextId = st.nextId := by
  unfold mergeBranch
  split <;> simp

/-! ## Claim theorems for the per-cluster branches -/

/-- C4: a cluster overlapping no existing constellation is appended as
exactly one new constellation whose member list is exactly the cluster,
with the freshly allocated identity and the creation timestamp, and exactly
one discovery event is emitted, rewarding `50 + 10 × size` starlight and
`20 + 5 × size` data. -/
theorem claim_C4 {oracle : ℕ → String} {now : ℕ} {st : RecState}
    {cluster : List String}
    (h : overlapsOf st.constellations cluster = []) :
    (reconcileCluster oracle now st cluster).constellations
        = st.constellations ++ [⟨st.nextId, oracle cluster.length, cluster, now⟩]
    ∧ (reconcileCluster oracle now st cluster).events
        = st.events ++
            [⟨oracle cluster.length, 50 + cluster.length * 10,
              20 + cluster.length * 5⟩]
    ∧ (reconcileCluster oracle now st cluster).nextId = st.nextId + 1
    ∧ ((∀ c ∈ st.constellations, c.id < st.nextId) →
        ∀ c ∈ st.constellations, c.id ≠ st.nextId) := by
  rw [reconcileCluster_eq_create h]
  exact ⟨rfl, rfl, rfl, fun hf c hc => Nat.ne_of_lt (hf c hc)⟩

/-- Witness for C4: the Scenario-A cluster of three bodies creates one
constellation and is rewarded 80 starlight and 35 data. -/
theorem claim_C4_witness :
    overlapsOf ([] : List Constellation) ["A", "B", "C"] = []
    ∧ (reconcileCluster (fun _ => "Nova") 7 ⟨[], 0, [], false⟩
        ["A", "B", "C"]).events = [⟨"Nova", 80, 35⟩] := by
  have h0 : overlapsOf ([] : List Constellation) ["A", "B", "C"] = [] := by decide
  have h := @claim_C4 (fun _ => "Nova") 7 ⟨[], 0, [], false⟩ ["A", "B", "C"] h0
  exact ⟨h0, by simpa using h.2.1⟩

/-- C3: a cluster overlapping two or more existing constellations replaces
the first overlapping constellation (first in iteration order) by one whose
member set is the union of the cluster with all overlapping member sets,
removes every other overlapping constellation, keeps everything else, and
emits no event and no reward. -/
theorem claim_C3 {oracle : ℕ → String} {now : ℕ} {st : RecState}
    {cluster : List String} {p : Constellation} {rest : List Constellation}
    (hids : (st.constellations.map (·.id)).Nodup)
    (h : overlapsOf st.constellations cluster = p :: rest)
    (hrest : rest ≠ []) :
    (∃ C' ∈ (reconcileCluster oracle now st cluster).constellations,
        C'.id = p.id ∧
          ∀ x, x ∈ C'.starIds ↔
            x ∈ cluster ∨ ∃ o ∈ overlapsOf st.constellations cluster, x ∈ o.starIds)
    ∧ (∀ o ∈ rest, ∀ c ∈ (reconcileCluster oracle now st cluster).constellations,
        c.id ≠ o.id)
    ∧ (∀ c ∈ st.constellations,
        c ∉ overlapsOf st.constellations cluster →
          c ∈ (reconcileCluster oracle now st cluster).constellations)
    ∧ (reconcileCluster oracle now st cluster).events = st.events
    ∧ (reconcileCluster oracle now st cluster).nextId = st.nextId := by
  have hcond :
      (cluster.any (fun id => !(p.starIds.contains id)) || !rest.isEmpty) = true := by
    cases rest with
    | nil => exact absurd rfl hrest
    | cons a t => simp
  obtain ⟨hp, hrestmem, hrid⟩ := overlaps_head_facts hids h
  rw [reconcileCluster_eq_merge h]
  refine ⟨⟨_, (mem_mergeBranch_active hids h hcond).mpr (Or.inl rfl), rfl, ?_⟩,
    ?_, ?_, ?_, ?_⟩
  · intro x
    dsimp only
    rw [mem_mergedIds, h]
    simp only [List.mem_cons]
    constructor
    · rintro (hx | hx | ⟨o, ho, hx⟩)
      · exact Or.inr ⟨p, Or.inl rfl, hx⟩
      · exact Or.inl hx
      · exact Or.inr ⟨o, Or.inr ho, hx⟩
    · rintro (hx | ⟨o, rfl | ho, hx⟩)
      · exact Or.inr (Or.inl hx)
      · exact Or.inl hx
      · exact Or.inr (Or.inr ⟨o, ho, hx⟩)
  · intro o ho c hc
    rcases (mem_mergeBranch_active hids h hcond).mp hc with rfl | ⟨_, _, hfree⟩
    · exact fun he => hrid o ho he.symm
    · exact fun he => hfree o ho he.symm
  · intro c hc hnov
    refine (mem_mergeBranch_active hids h hcond).mpr (Or.inr ⟨hc, ?_, ?_⟩)
    · intro he
      have hcp : c = p := constellation_id_injOn hids c hc p hp he
      subst hcp
      exact hnov (h ▸ List.mem_cons_self c rest)
    · intro o ho he
      have : o = c := constellation_id_injOn hids o (hrestmem o ho) c hc he
      subst this
      exact hnov (h ▸ List.mem_cons_of_mem p ho)
  · exact (mergeBranch_frame st cluster p rest).1
  · exact (mergeBranch_frame st cluster p rest).2

/-- Witness for C3: Scenario D, a cluster bridging two existing
constellations is merged into the first one with no event. -/
theorem claim_C3_witness :
    overlapsOf [⟨0, "X", ["A", "B", "C"], 0⟩, ⟨1, "Y", ["D", "E", "F"], 0⟩]
        ["A", "B", "C", "D", "E", "F", "G"]
      = [⟨0, "X", ["A", "B", "C"], 0⟩, ⟨1, "Y", ["D", "E", "F"], 0⟩]
    ∧ (reconcileCluster (fun _ => "N") 0
        ⟨[⟨0, "X", ["A", "B", "C"], 0⟩, ⟨1, "Y", ["D", "E", "F"], 0⟩], 2, [], false⟩
        ["A", "B", "C", "D", "E", "F", "G"]).events = [] := by
  have h0 : overlapsOf
      [⟨0, "X", ["A", "B", "C"], 0⟩, ⟨1, "Y", ["D", "E", "F"], 0⟩]
      ["A", "B", "C", "D", "E", "F", "G"]
      = [⟨0, "X", ["A", "B", "C"], 0⟩, ⟨1, "Y", ["D", "E", "F"], 0⟩] := by decide
  have h := @claim_C3 (fun _ => "N") 0
      ⟨[⟨0, "X", ["A", "B", "C"], 0⟩, ⟨1, "Y", ["D", "E", "F"], 0⟩], 2, [], false⟩
      ["A", "B", "C", "D", "E", "F", "G"]
      ⟨0, "X", ["A", "B", "C"], 0⟩ [⟨1, "Y", ["D", "E", "F"], 0⟩]
      (by decide) h0 (by decide)
  exact ⟨h0, h.2.2.2.1⟩

/-- C5: a cluster overlapping exactly one existing constellation extends it
to the union of its old members and the cluster when the cluster brings at
least one new member (no event, no reward); when the cluster brings no id
outside the constellation, the state is unchanged. -/
theorem claim_C5 {oracle : ℕ → String} {now : ℕ} {st : RecState}
    {cluster : List String} {p : Constellation}
    (hids : (st.constellations.map (·.id)).Nodup)
    (h : overlapsOf st.constellations cluster = [p]) :
    ((∀ x ∈ p.starIds, x ∈ cluster) → (∃ x ∈ cluster, x ∉ p.starIds) →
      (∃ C' ∈ (reconcileCluster oracle now st cluster).constellations,
          C'.id = p.id ∧ ∀ x, x ∈ C'.starIds ↔ x ∈ p.starIds ∨ x ∈ cluster)
      ∧ (∀ c ∈ st.constellations, c.id ≠ p.id →
          c ∈ (reconcileCluster oracle now st cluster).constellations)
      ∧ (reconcileCluster oracle now st cluster).events = st.events
      ∧ (reconcileCluster oracle now st cluster).nextId = st.nextId)
    ∧ ((∀ x ∈ cluster, x ∈ p.starIds) →
        reconcileCluster oracle now st cluster = st) := by
  constructor
  · intro _ hnew
    have hcond :
        (cluster.any (fun id => !(p.starIds.contains id)) ||
          !(List.isEmpty ([] : List Constellation))) = true := by
      obtain ⟨x, hx, hxn⟩ := hnew
      simp only [List.any_eq_true, Bool.or_eq_true]
      exact Or.inl ⟨x, hx, by simpa using hxn⟩
    rw [reconcileCluster_eq_merge h]
    refine ⟨⟨_, (mem_mergeBranch_active hids h hcond).mpr (Or.inl rfl), rfl, ?_⟩,
      ?_, ?_, ?_⟩
    · intro x
      dsimp only
      rw [mem_mergedIds]
      simp
    · intro c hc hne
      exact (mem_mergeBranch_active hids h hcond).mpr
        (Or.inr ⟨hc, hne, by simp⟩)
    · exact (mergeBranch_frame st cluster p []).1
    · exact (mergeBranch_frame st cluster p []).2
  · intro hsub
    rw [reconcileCluster_eq_merge h]
    exact mergeBranch_inactive hsub

/-- Witness for C5: Scenario C (a new body D extends {A,B,C} with no
event), and the no-new-member case is a no-op. -/
theorem claim_C5_witness :
    overlapsOf [⟨0, "X", ["A", "B", "C"], 0⟩] ["A", "B", "C", "D"]
      = [⟨0, "X", ["A", "B", "C"], 0⟩]
    ∧ (reconcileCluster (fun _ => "N") 0
        ⟨[⟨0, "X", ["A", "B", "C"], 0⟩], 1, [], false⟩ ["A", "B", "C", "D"]).events = []
    ∧ reconcileCluster (fun _ => "N") 0
        ⟨[⟨0, "X", ["A", "B", "C"], 0⟩], 1, [], false⟩ ["A", "B", "C"]
        = ⟨[⟨0, "X", ["A", "B", "C"], 0⟩], 1, [], false⟩ := by
  have h0 : overlapsOf [⟨0, "X", ["A", "B", "C"], 0⟩] ["A", "B", "C", "D"]
      = [⟨0, "X", ["A", "B", "C"], 0⟩] := by decide
  have h1 := @claim_C5 (fun _ => "N") 0
      ⟨[⟨0, "X", ["A", "B", "C"], 0⟩], 1, [], false⟩ ["A", "B", "C", "D"]
      ⟨0, "X", ["A", "B", "C"], 0⟩ (by decide) h0
  have h2 := @claim_C5 (fun _ => "N") 0
      ⟨[⟨0, "X", ["A", "B", "C"], 0⟩], 1, [], false⟩ ["A", "B", "C"]
      ⟨0, "X", ["A", "B", "C"], 0⟩ (by decide) (by decide)
  exact ⟨h0, (h1.1 (by decide) ⟨"D", by decide, by decide⟩).2.2.1,
    h2.2 (by decide)⟩

/-! ## Properties of the spatial graph builder -/

/-- The adjacency relation as a proposition. -/
def adjRel (stars : List CelestialBody) (a b : String) : Prop :=
  adjacentB stars a b = true

/-- Connectivity in the proximity graph: the reflexive-transitive closure
of the adjacency relation. -/
def reaches (stars : List CelestialBody) : String → String → Prop :=
  Relation.ReflTransGen (adjRel stars)

/-- The connected component of an id in the proximity graph. -/
def componentSet (stars : List CelestialBody) (b : String) : Set String :=
  { a | reaches stars b a }

theorem adjRel_symm {stars : List CelestialBody} {a b : String}
    (h : adjRel stars a b) : adjRel stars b a := by
  unfold adjRel adjacentB at h ⊢
  simp only [List.any_eq_true, Bool.and_eq_true, beq_iff_eq, Bool.not_eq_true',
    beq_eq_false_iff_ne, ne_eq] at h ⊢
  obtain ⟨s1, hs1, s2, hs2, ⟨⟨⟨ha, hb⟩, hne⟩, hd⟩⟩ := h
  refine ⟨s2, hs2, s1, hs1, ⟨⟨⟨hb, ha⟩, fun he => hne he.symm⟩, ?_⟩⟩
  have : distSq s2.coordinates s1.coordinates = distSq s1.coordinates s2.coordinates := by
    unfold distSq
    ring
  unfold withinMaxDist at hd ⊢
  rw [this]
  exact hd

theorem reaches_symm {stars : List CelestialBody} {a b : String}
    (h : reaches stars a b) : reaches stars b a := by
  induction h with
  | refl => exact Relation.ReflTransGen.refl
  | tail _ hstep ih =>
      exact Relation.ReflTransGen.trans
        (Relation.ReflTransGen.single (adjRel_symm hstep)) ih

theorem mem_neighbors {stars : List CelestialBody} {a b : String} :
    b ∈ neighbors stars a ↔ b ∈ stars.map (·.id) ∧ adjRel stars a b := by
  unfold neighbors adjRel
  simp [List.mem_filter]

/-! Properties of the inner push loop `dfsPush`. -/

theorem dfsPush_visited_mono {ns : List String} {v s : List String} {x : String}
    (h : x ∈ v) : x ∈ (dfsPush (v, s) ns).1 := by
  induction ns generalizing v s with
  | nil => exact h
  | cons n t ih =>
      show x ∈ (List.foldl _ (if n ∈ v then (v, s) else (n :: v, n :: s)) t).1
      split
      · exact ih h
      · exact ih (List.mem_cons_of_mem n h)

theorem dfsPush_visited_sub {ns : List String} {v s : List String} {x : String}
    (h : x ∈ (dfsPush (v, s) ns).1) : x ∈ v ∨ x ∈ ns := by
  induction ns generalizing v s with
  | nil => exact Or.inl h
  | cons n t ih =>
      rw [show dfsPush (v, s) (n :: t)
          = List.foldl _ (if n ∈ v then (v, s) else (n :: v, n :: s)) t from rfl] at h
      split at h
      · rcases ih h with hv | ht
        · exact Or.inl hv
        · exact Or.inr (List.mem_cons_of_mem n ht)
      · rcases ih h with hv | ht
        · rcases List.mem_cons.mp hv with rfl | hv
          · exact Or.inr (List.mem_cons_self x t)
          · exact Or.inl hv
        · exact Or.inr (List.mem_cons_of_mem n ht)

theorem dfsPush_stack_char {ns : List String} {v s : List String} {x : String} :
    x ∈ (dfsPush (v, s) ns).2 ↔ x ∈ s ∨ (x ∈ ns ∧ x ∉ v) := by
  induction ns generalizing v s with
  | nil => simp [dfsPush]
  | cons n t ih =>
      rw [show dfsPush (v, s) (n :: t)
          = List.foldl _ (if n ∈ v then (v, s) else (n :: v, n :: s)) t from rfl]
      split <;> rename_i hn
      · rw [show List.foldl _ (v, s) t = dfsPush (v, s) t from rfl, ih]
        constructor
        · rintro (hs | ⟨ht, hv⟩)
          · exact Or.inl hs
          · exact Or.inr ⟨List.mem_cons_of_mem n ht, hv⟩
        · rintro (hs | ⟨hnt, hv⟩)
          · exact Or.inl hs
          · rcases List.mem_cons.mp hnt with rfl | ht
            · exact absurd hn hv
            · exact Or.inr ⟨ht, hv⟩
      · rw [show List.foldl _ (n :: v, n :: s) t = dfsPush (n :: v, n :: s) t from rfl, ih]
        constructor
        · rintro (hs | ⟨ht, hv⟩)
          · rcases List.mem_cons.mp hs with rfl | hs
            · exact Or.inr ⟨List.mem_cons_self x t, hn⟩
            · exact Or.inl hs
          · exact Or.inr ⟨List.mem_cons_of_mem n ht,
              fun hv2 => hv (List.mem_cons_of_mem n hv2)⟩
        · rintro (hs | ⟨hnt, hv⟩)
          · exact Or.inl (List.mem_cons_of_mem n hs)
          · rcases List.mem_cons.mp hnt with rfl | ht
            · exact Or.inl (List.mem_cons_self x s)
            · by_cases hxn : x = n
              · subst hxn
                exact Or.inl (List.mem_cons_self x s)
              · exact Or.inr ⟨ht, by simp [hxn, hv]⟩

theorem dfsPush_stack_nodup {ns : List String} {v s : List String}
    (hnd : s.Nodup) (hsv : ∀ x ∈ s, x ∈ v) :
    (dfsPush (v, s) ns).2.Nodup := by
  induction ns generalizing v s with
  | nil => exact hnd
  | cons n t ih =>
      rw [show dfsPush (v, s) (n :: t)
          = List.foldl _ (if n ∈ v then (v, s) else (n :: v, n :: s)) t from rfl]
      split <;> rename_i hn
      · exact ih hnd hsv
      · refine ih (List.nodup_cons.mpr ⟨fun hns => hn (hsv n hns), hnd⟩) ?_
        intro x hx
        rcases List.mem_cons.mp hx with rfl | hx
        · exact List.mem_cons_self x v
        · exact List.mem_cons_of_mem n (hsv x hx)

/-- Invariant of the DFS `while` loop, relative to the start id `root` and
the set `V0` of ids visited before this component's traversal started. -/
structure DfsInv (stars : List CelestialBody) (root : String) (V0 : List String)
    (stack visited cluster : List String) : Prop where
  stack_vis : ∀ x ∈ stack, x ∈ visited
  cluster_vis : ∀ x ∈ cluster, x ∈ visited
  stack_nd : stack.Nodup
  cluster_nd : cluster.Nodup
  stack_cluster : ∀ x ∈ stack, x ∉ cluster
  v0_vis : ∀ x ∈ V0, x ∈ visited
  stack_v0 : ∀ x ∈ stack, x ∉ V0
  cluster_v0 : ∀ x ∈ cluster, x ∉ V0
  stack_reach : ∀ x ∈ stack, reaches stars root x
  cluster_reach : ∀ x ∈ cluster, reaches stars root x
  stack_ids : ∀ x ∈ stack, x ∈ stars.map (·.id)
  cluster_ids : ∀ x ∈ cluster, x ∈ stars.map (·.id)

theorem dfsPush_visited_char {ns : List String} {v s : List String} {x : String} :
    x ∈ (dfsPush (v, s) ns).1 ↔ x ∈ v ∨ x ∈ ns := by
  induction ns generalizing v s with
  | nil => simp [dfsPush]
  | cons n t ih =>
      rw [show dfsPush (v, s) (n :: t)
          = List.foldl _ (if n ∈ v then (v, s) else (n :: v, n :: s)) t from rfl]
      split <;> rename_i hn
      · rw [show List.foldl _ (v, s) t = dfsPush (v, s) t from rfl, ih]
        constructor
        · rintro (hv | ht)
          · exact Or.inl hv
          · exact Or.inr (List.mem_cons_of_mem n ht)
        · rintro (hv | hnt)
          · exact Or.inl hv
          · rcases List.mem_cons.mp hnt with rfl | ht
            · exact Or.inl hn
            · exact Or.inr ht
      · rw [show List.foldl _ (n :: v, n :: s) t = dfsPush (n :: v, n :: s) t from rfl, ih]
        constructor
        · rintro (hv | ht)
          · rcases List.mem_cons.mp hv with rfl | hv
            · exact Or.inr (List.mem_cons_self x t)
            · exact Or.inl hv
          · exact Or.inr (List.mem_cons_of_mem n ht)
        · rintro (hv | hnt)
          · exact Or.inl (List.mem_cons_of_mem n hv)
          · rcases List.mem_cons.mp hnt with rfl | ht
            · exact Or.inl (List.mem_cons_self x v)
            · exact Or.inr ht

/-- One iteration of the DFS loop preserves the invariant. -/
theorem DfsInv.step {stars : List CelestialBody} {root : String}
    {V0 : List String} {current : String} {stack visited cluster : List String}
    (H : DfsInv stars root V0 (current :: stack) visited cluster) :
    DfsInv stars root V0
      (dfsPush (visited, stack) (neighbors stars current)).2
      (dfsPush (visited, stack) (neighbors stars current)).1
      (cluster ++ [current]) := by
  have hcur_vis : current ∈ visited := H.stack_vis current (List.mem_cons_self _ _)
  have hcur_reach : reaches stars root current :=
    H.stack_reach current (List.mem_cons_self _ _)
  have hcur_ids : current ∈ stars.map (·.id) :=
    H.stack_ids current (List.mem_cons_self _ _)
  have hcur_ncl : current ∉ cluster :=
    H.stack_cluster current (List.mem_cons_self _ _)
  have hcur_nv0 : current ∉ V0 := H.stack_v0 current (List.mem_cons_self _ _)
  have htail_vis : ∀ x ∈ stack, x ∈ visited :=
    fun x hx => H.stack_vis x (List.mem_cons_of_mem _ hx)
  have hnd := List.nodup_cons.mp H.stack_nd
  constructor
  case stack_vis =>
    intro x hx
    rcases dfsPush_stack_char.mp hx with hs | ⟨hn, _⟩
    · exact dfsPush_visited_mono (htail_vis x hs)
    · exact dfsPush_visited_char.mpr (Or.inr hn)
  case cluster_vis =>
    intro x hx
    rcases List.mem_append.mp hx with hc | hc
    · exact dfsPush_visited_mono (H.cluster_vis x hc)
    · rw [List.mem_singleton.mp hc]
      exact dfsPush_visited_mono hcur_vis
  case stack_nd => exact dfsPush_stack_nodup hnd.2 htail_vis
  case cluster_nd =>
    simp only [List.nodup_append, List.nodup_cons]
    exact ⟨H.cluster_nd, by simp, by simpa using fun hc => hcur_ncl hc⟩
  case stack_cluster =>
    intro x hx hxc
    rcases List.mem_append.mp hxc with hc | hc
    · rcases dfsPush_stack_char.mp hx with hs | ⟨_, hnv⟩
      · exact H.stack_cluster x (List.mem_cons_of_mem _ hs) hc
      · exact hnv (H.cluster_vis x hc)
    · rw [List.mem_singleton.mp hc] at hx
      rcases dfsPush_stack_char.mp hx with hs | ⟨_, hnv⟩
      · exact hnd.1 hs
      · exact hnv hcur_vis
  case v0_vis => exact fun x hx => dfsPush_visited_mono (H.v0_vis x hx)
  case stack_v0 =>
    intro x hx
    rcases dfsPush_stack_char.mp hx with hs | ⟨_, hnv⟩
    · exact H.stack_v0 x (List.mem_cons_of_mem _ hs)
    · exact fun h0 => hnv (H.v0_vis x h0)
  case cluster_v0 =>
    intro x hx
    rcases List.mem_append.mp hx with hc | hc
    · exact H.cluster_v0 x hc
    · rw [List.mem_singleton.mp hc]
      exact hcur_nv0
  case stack_reach =>
    intro x hx
    rcases dfsPush_stack_char.mp hx with hs | ⟨hn, _⟩
    · exact H.stack_reach x (List.mem_cons_of_mem _ hs)
    · exact Relation.ReflTransGen.tail hcur_reach (mem_neighbors.mp hn).2
  case cluster_reach =>
    intro x hx
    rcases List.mem_append.mp hx with hc | hc
    · exact H.cluster_reach x hc
    · rw [List.mem_singleton.mp hc]
      exact hcur_reach
  case stack_ids =>
    intro x hx
    rcases dfsPush_stack_char.mp hx with hs | ⟨hn, _⟩
    · exact H.stack_ids x (List.mem_cons_of_mem _ hs)
    · exact (mem_neighbors.mp hn).1
  case cluster_ids =>
    intro x hx
    rcases List.mem_append.mp hx with hc | hc
    · exact H.cluster_ids x hc
    · rw [List.mem_singleton.mp hc]
      exact hcur_ids

/-- Running the DFS loop from an invariant state: the produced component is
duplicate-free, disjoint from `V0`, reachable from the root, drawn from the
star ids, and recorded in the final visited list, which extends the
initial one. -/
theorem dfsAux_spec {stars : List CelestialBody} {root : String}
    {V0 : List String} :
    ∀ (fuel : ℕ) {stack visited cluster : List String},
      DfsInv stars root V0 stack visited cluster →
      (dfsAux stars fuel stack visited cluster).1.Nodup
      ∧ (∀ x ∈ (dfsAux stars fuel stack visited cluster).1,
          reaches stars root x ∧ x ∉ V0 ∧ x ∈ stars.map (·.id)
            ∧ x ∈ (dfsAux stars fuel stack visited cluster).2)
      ∧ (∀ x ∈ visited, x ∈ (dfsAux stars fuel stack visited cluster).2) := by
  intro fuel
  induction fuel with
  | zero =>
      intro stack visited cluster H
      exact ⟨H.cluster_nd,
        fun x hx => ⟨H.cluster_reach x hx, H.cluster_v0 x hx,
          H.cluster_ids x hx, H.cluster_vis x hx⟩,
        fun x hx => hx⟩
  | succ fuel ih =>
      intro stack visited cluster H
      cases stack with
      | nil =>
          exact ⟨H.cluster_nd,
            fun x hx => ⟨H.cluster_reach x hx, H.cluster_v0 x hx,
              H.cluster_ids x hx, H.cluster_vis x hx⟩,
            fun x hx => hx⟩
      | cons current stack =>
          have H2 := H.step
          have hrec := ih H2
          refine ⟨hrec.1, hrec.2.1, fun x hx => hrec.2.2 x ?_⟩
          exact dfsPush_visited_mono hx

/-- Invariant of the component loop: the accumulated clusters all have at
least 3 members, are duplicate-free, drawn from the star ids, connected,
pairwise disjoint, and recorded in the visited list. -/
structure ClustersInv (stars : List CelestialBody) (visited : List String)
    (acc : List (List String)) : Prop where
  len : ∀ K ∈ acc, 3 ≤ K.length
  nd : ∀ K ∈ acc, K.Nodup
  ids : ∀ K ∈ acc, ∀ x ∈ K, x ∈ stars.map (·.id)
  root : ∀ K ∈ acc, ∃ s ∈ stars, ∀ x ∈ K, reaches stars s.id x
  disj : acc.Pairwise (fun K K' => ∀ x ∈ K, x ∉ K')
  vis : ∀ K ∈ acc, ∀ x ∈ K, x ∈ visited

theorem findClustersAux_spec {stars : List CelestialBody} :
    ∀ (rem : List CelestialBody) {visited : List String}
      {acc : List (List String)},
      (∀ s ∈ rem, s ∈ stars) → ClustersInv stars visited acc →
      ∃ v, ClustersInv stars v (findClustersAux stars rem visited acc) := by
  intro rem
  induction rem with
  | nil => exact fun _ H => ⟨_, H⟩
  | cons s rest ih =>
      intro visited acc hrem H
      have hs : s ∈ stars := hrem s (List.mem_cons_self _ _)
      have hrest : ∀ t ∈ rest, t ∈ stars :=
        fun t ht => hrem t (List.mem_cons_of_mem _ ht)
      show ∃ v, ClustersInv stars v
        (if s.id ∈ visited then findClustersAux stars rest visited acc else _)
      split <;> rename_i hvis
      · exact ih hrest H
      · have hinv0 : DfsInv stars s.id visited [s.id] (s.id :: visited) [] := by
          constructor
          case stack_vis => intro x hx; rw [List.mem_singleton.mp hx]; exact List.mem_cons_self _ _
          case cluster_vis => intro x hx; cases hx
          case stack_nd => simp
          case cluster_nd => simp
          case stack_cluster => intro x _ hc; cases hc
          case v0_vis => exact fun x hx => List.mem_cons_of_mem _ hx
          case stack_v0 => intro x hx; rw [List.mem_singleton.mp hx]; exact hvis
          case cluster_v0 => intro x hx; cases hx
          case stack_reach =>
            intro x hx
            rw [List.mem_singleton.mp hx]
            exact Relation.ReflTransGen.refl
          case cluster_reach => intro x hx; cases hx
          case stack_ids =>
            intro x hx
            rw [List.mem_singleton.mp hx]
            exact List.mem_map.mpr ⟨s, hs, rfl⟩
          case cluster_ids => intro x hx; cases hx
        have hspec := dfsAux_spec (stars.length + 1) hinv0
        refine ih hrest ?_
        constructor
        case len =>
          intro K hK
          split at hK
          · rcases List.mem_append.mp hK with h | h
            · exact H.len K h
            · rw [List.mem_singleton.mp h]; assumption
          · exact H.len K hK
        case nd =>
          intro K hK
          split at hK
          · rcases List.mem_append.mp hK with h | h
            · exact H.nd K h
            · rw [List.mem_singleton.mp h]; exact hspec.1
          · exact H.nd K hK
        case ids =>
          intro K hK
          split at hK
          · rcases List.mem_append.mp hK with h | h
            · exact H.ids K h
            · rw [List.mem_singleton.mp h]
              exact fun x hx => (hspec.2.1 x hx).2.2.1
          · exact H.ids K hK
        case root =>
          intro K hK
          split at hK
          · rcases List.mem_append.mp hK with h | h
            · exact H.root K h
            · rw [List.mem_singleton.mp h]
              exact ⟨s, hs, fun x hx => (hspec.2.1 x hx).1⟩
          · exact H.root K hK
        case disj =>
          split
          · rw [List.pairwise_append]
            refine ⟨H.disj, by simp, ?_⟩
            intro K hK L hL x hxK hxL
            rw [List.mem_singleton.mp hL] at hxL
            exact (hspec.2.1 x hxL).2.1 (H.vis K hK x hxK)
          · exact H.disj
        case vis =>
          intro K hK
          split at hK
          · rcases List.mem_append.mp hK with h | h
            · exact fun x hx =>
                hspec.2.2 x (List.mem_cons_of_mem _ (H.vis K h x hx))
            · rw [List.mem_singleton.mp h]
              exact fun x hx => (hspec.2.1 x hx).2.2.2
          · exact fun x hx =>
              hspec.2.2 x (List.mem_cons_of_mem _ (H.vis K hK x hx))

/-- The clusters produced by the graph-building step: at least 3 members
each, duplicate-free, drawn from the star ids, internally connected, and
pairwise disjoint. -/
theorem findClusters_spec (stars : List CelestialBody) :
    (∀ K ∈ findClusters stars, 3 ≤ K.length)
    ∧ (∀ K ∈ findClusters stars, K.Nodup)
    ∧ (∀ K ∈ findClusters stars, ∀ x ∈ K, x ∈ stars.map (·.id))
    ∧ (∀ K ∈ findClusters stars, ∃ s ∈ stars, ∀ x ∈ K, reaches stars s.id x)
    ∧ (findClusters stars).Pairwise (fun K K' => ∀ x ∈ K, x ∉ K') := by
  have h0 : ClustersInv stars [] [] := by
    constructor <;> simp
  obtain ⟨v, H⟩ := findClustersAux_spec stars (fun _ hs => hs) h0
  exact ⟨H.len, H.nd, H.ids, H.root, H.disj⟩

/-! ## The constellation-list invariant (disjointness, size, identities) -/

/-- The constellation-list invariant claimed by the specification:
member sets are pairwise disjoint, duplicate-free, and of size at least 3. -/
def GoodList (cs : List Constellation) : Prop :=
  cs.Pairwise (fun c d => ∀ x ∈ c.starIds, x ∉ d.starIds)
  ∧ ∀ c ∈ cs, c.starIds.Nodup ∧ 3 ≤ c.starIds.length

/-- Identity bookkeeping: ids are distinct and below the allocation
counter. -/
def IdsOk (cs : List Constellation) (nid : ℕ) : Prop :=
  (cs.map (·.id)).Nodup ∧ ∀ c ∈ cs, c.id < nid

theorem disjoint_symm :
    Symmetric (fun c d : Constellation => ∀ x ∈ c.starIds, x ∉ d.starIds) :=
  fun _ _ h x hx hx' => h x hx' hx

/-- Pointwise form of the pairwise disjointness. -/
theorem GoodList.pointwise {cs : List Constellation} (hG : GoodList cs) :
    ∀ c ∈ cs, ∀ d ∈ cs, c ≠ d → ∀ x ∈ c.starIds, x ∉ d.starIds :=
  fun _ hc _ hd hne => hG.1.forall disjoint_symm hc hd hne

theorem mergeBranch_cond_false {st : RecState} {cluster : List String}
    {p : Constellation} {rest : List Constellation}
    (h : (cluster.any (fun id => !(p.starIds.contains id)) || !rest.isEmpty) = false) :
    mergeBranch st cluster p rest = st := by
  unfold mergeBranch
  rw [h]
  simp

/-- A duplicate-free list contained in another duplicate-free list is no
longer than it. -/
theorem nodup_subset_length_le {l₁ l₂ : List String} (h₁ : l₁.Nodup)
    (hsub : ∀ x ∈ l₁, x ∈ l₂) : l₁.length ≤ l₂.length :=
  (List.subperm_of_subset h₁ hsub).length_le

/-- One cluster-reconciliation step preserves the constellation-list
invariant and the identity bookkeeping, and does not lower the counter. -/
theorem reconcileCluster_preserves {oracle : ℕ → String} {now : ℕ}
    {st : RecState} {cluster : List String}
    (hG : GoodList st.constellations) (hI : IdsOk st.constellations st.nextId)
    (hK : cluster.Nodup) (hK3 : 3 ≤ cluster.length) :
    GoodList (reconcileCluster oracle now st cluster).constellations
    ∧ IdsOk (reconcileCluster oracle now st cluster).constellations
        (reconcileCluster oracle now st cluster).nextId
    ∧ st.nextId ≤ (reconcileCluster oracle now st cluster).nextId := by
  cases h : overlapsOf st.constellations cluster with
  | nil =>
      rw [reconcileCluster_eq_create h]
      simp only [createBranch]
      have hdisj : ∀ c ∈ st.constellations, ∀ x ∈ c.starIds, x ∉ cluster :=
        overlapsOf_eq_nil_iff.mp h
      refine ⟨⟨?_, ?_⟩, ⟨?_, ?_⟩, Nat.le_succ _⟩
      · rw [List.pairwise_append]
        refine ⟨hG.1, by simp, ?_⟩
        intro c hc d hd
        rw [List.mem_singleton.mp hd]
        exact hdisj c hc
      · intro c hc
        rcases List.mem_append.mp hc with hc | hc
        · exact hG.2 c hc
        · rw [List.mem_singleton.mp hc]
          exact ⟨hK, hK3⟩
      · rw [List.map_append, List.nodup_append]
        refine ⟨hI.1, by simp, ?_⟩
        intro a ha1 ha2
        obtain ⟨c, hc, rfl⟩ := List.mem_map.mp ha1
        have he : c.id = st.nextId := by simpa using ha2
        exact absurd he (Nat.ne_of_lt (hI.2 c hc))
      · intro c hc
        rcases List.mem_append.mp hc with hc | hc
        · exact Nat.lt_succ_of_lt (hI.2 c hc)
        · rw [List.mem_singleton.mp hc]
          exact Nat.lt_succ_self _
  | cons p rest =>
      rw [reconcileCluster_eq_merge h,
        show (mergeBranch st cluster p rest).nextId = st.nextId from
          (mergeBranch_frame st cluster p rest).2]
      by_cases hcond :
          (cluster.any (fun id => !(p.starIds.contains id)) || !rest.isEmpty) = true
      · obtain ⟨hp, hrestmem, hrid⟩ := overlaps_head_facts hI.1 h
        have hmem := fun {d} => @mem_mergeBranch_active st cluster p rest d hI.1 h hcond
        have hinj := constellation_id_injOn hI.1
        have hpoint := hG.pointwise
        -- the merged member list
        set M := dedupFirst (p.starIds ++ cluster ++ rest.flatMap (·.starIds)) with hM
        have hMmem : ∀ x, x ∈ M ↔
            x ∈ p.starIds ∨ x ∈ cluster ∨ ∃ o ∈ rest, x ∈ o.starIds :=
          fun x => mem_mergedIds
        have hclM : ∀ x ∈ cluster, x ∈ M :=
          fun x hx => (hMmem x).mpr (Or.inr (Or.inl hx))
        -- survivors with a different id are not overlapping constellations
        have hsurv_not_ov : ∀ d ∈ st.constellations, d.id ≠ p.id →
            (∀ o ∈ rest, o.id ≠ d.id) → d ∉ overlapsOf st.constellations cluster := by
          intro d _ hdp hdr hdov
          rw [h] at hdov
          rcases List.mem_cons.mp hdov with rfl | hdov
          · exact hdp rfl
          · exact hdr d hdov rfl
        -- the fully merged constellation is disjoint from every survivor
        have hMdisj : ∀ d ∈ st.constellations, d.id ≠ p.id →
            (∀ o ∈ rest, o.id ≠ d.id) → ∀ x ∈ M, x ∉ d.starIds := by
          intro d hd hdp hdr x hxM hxd
          have hdne : d ≠ p := fun he => hdp (he ▸ rfl)
          have hdnov := hsurv_not_ov d hd hdp hdr
          rcases (hMmem x).mp hxM with hx | hx | ⟨o, ho, hx⟩
          · exact hpoint p hp d hd (fun he => hdne he.symm) x hx hxd
          · exact hdnov (mem_overlapsOf.mpr ⟨hd, x, hxd, hx⟩)
          · have hone : o ≠ d := by
              intro he
              exact hdr o ho (he ▸ rfl)
            exact hpoint o (hrestmem o ho) d hd hone x hx hxd
        refine ⟨⟨?_, ?_⟩, ⟨?_, ?_⟩, Nat.le_refl _⟩
        · -- pairwise disjointness of the merged list
          show ((mergeBranch st cluster p rest).constellations).Pairwise _
          rw [mergeBranch_active hcond]
          rw [List.pairwise_map]
          refine List.Pairwise.imp_of_mem ?_ (hG.1.filter _)
          intro a b ha hb hR
          have ha' := List.mem_filter.mp ha
          have hb' := List.mem_filter.mp hb
          have hafree : ∀ o ∈ rest, o.id ≠ a.id := by
            have := ha'.2
            simp only [Bool.not_eq_true', List.any_eq_false] at this
            intro o ho he
            exact absurd (by simpa using he) (this o ho)
          have hbfree : ∀ o ∈ rest, o.id ≠ b.id := by
            have := hb'.2
            simp only [Bool.not_eq_true', List.any_eq_false] at this
            intro o ho he
            exact absurd (by simpa using he) (this o ho)
          by_cases hap : a.id = p.id
          · have haeq : a = p := hinj a ha'.1 p hp hap
            subst haeq
            by_cases hbp : b.id = a.id
            · -- both are the primary: its member set is nonempty, so the
              -- pairwise hypothesis is contradictory
              have hbeq : b = a := hinj b hb'.1 a ha'.1 hbp
              subst hbeq
              have h3 := (hG.2 b hb'.1).2
              have : b.starIds ≠ [] := by
                intro he
                rw [he] at h3
                simp at h3
              obtain ⟨y, hy⟩ := List.exists_mem_of_ne_nil _ this
              exact absurd hy (hR y hy)
            · simp only [if_pos rfl, if_neg hbp]
              exact fun x hx => hMdisj b hb'.1 hbp hbfree x hx
          · by_cases hbp : b.id = p.id
            · have hbeq : b = p := hinj b hb'.1 p hp hbp
              subst hbeq
              simp only [if_neg hap, if_pos rfl]
              intro x hx hxM
              exact hMdisj a ha'.1 hap hafree x hxM hx
            · simp only [if_neg hap, if_neg hbp]
              exact hR
        · -- member sets of the merged list are duplicate-free and large
          intro d hd
          rcases hmem.mp hd with rfl | ⟨hd', _, _⟩
          · constructor
            · exact nodup_dedupFirst _
            · calc 3 ≤ cluster.length := hK3
                _ ≤ M.length := nodup_subset_length_le hK hclM
          · exact hG.2 d hd'
        · -- ids of the merged list are duplicate-free
          show ((mergeBranch st cluster p rest).constellations.map (·.id)).Nodup
          rw [mergeBranch_active hcond]
          have : ((st.constellations.filter
                (fun c => !(rest.any (fun o => o.id == c.id)))).map
              (fun c =>
                if c.id = p.id then { c with starIds := M } else c)).map (·.id)
              = (st.constellations.filter
                (fun c => !(rest.any (fun o => o.id == c.id)))).map (·.id) := by
            rw [List.map_map]
            refine List.map_congr_left ?_
            intro c _
            by_cases hc : c.id = p.id <;> simp [hc]
          rw [this]
          exact ((List.filter_sublist _).map _).nodup hI.1
        · intro d hd
          rcases hmem.mp hd with rfl | ⟨hd', _, _⟩
          · exact hI.2 p hp
          · exact hI.2 d hd'
      · rw [mergeBranch_cond_false (Bool.not_eq_true _ ▸ hcond)]
        exact ⟨hG, hI, Nat.le_refl _⟩

/-- The cluster loop preserves the constellation-list invariant. -/
theorem foldl_reconcile_preserves {oracle : ℕ → String} {now : ℕ} :
    ∀ (clusters : List (List String)) (st : RecState),
      GoodList st.constellations → IdsOk st.constellations st.nextId →
      (∀ K ∈ clusters, K.Nodup ∧ 3 ≤ K.length) →
      GoodList (clusters.foldl (reconcileCluster oracle now) st).constellations
      ∧ IdsOk (clusters.foldl (reconcileCluster oracle now) st).constellations
          (clusters.foldl (reconcileCluster oracle now) st).nextId
      ∧ st.nextId ≤ (clusters.foldl (reconcileCluster oracle now) st).nextId := by
  intro clusters
  induction clusters with
  | nil => exact fun st hG hI _ => ⟨hG, hI, Nat.le_refl _⟩
  | cons K rest ih =>
      intro st hG hI hKs
      have hK := hKs K (List.mem_cons_self _ _)
      have hstep := @reconcileCluster_preserves oracle now st K hG hI hK.1 hK.2
      have hrec := ih _ hstep.1 hstep.2.1
        (fun L hL => hKs L (List.mem_cons_of_mem _ hL))
      exact ⟨hrec.1, hrec.2.1, Nat.le_trans hstep.2.2 hrec.2.2⟩

/-- A reconciliation call preserves the constellation-list invariant. -/
theorem checkForConstellations_preserves {oracle : ℕ → String} {now : ℕ}
    {nid : ℕ} {stars : List CelestialBody} {cs : List Constellation}
    (hG : GoodList cs) (hI : IdsOk cs nid) :
    GoodList (checkForConstellations oracle now nid stars cs).constellations
    ∧ IdsOk (checkForConstellations oracle now nid stars cs).constellations
        (checkForConstellations oracle now nid stars cs).nextId
    ∧ nid ≤ (checkForConstellations oracle now nid stars cs).nextId := by
  unfold checkForConstellations
  split
  · exact ⟨hG, hI, Nat.le_refl _⟩
  · have hspec := findClusters_spec stars
    exact foldl_reconcile_preserves (findClusters stars) ⟨cs, nid, [], false⟩
      hG hI (fun K hK => ⟨hspec.2.1 K hK, hspec.1 K hK⟩)

/-- One reconciliation call of a call sequence: body set, timestamp and
naming-oracle behaviour may differ from call to call. -/
structure CallInput where
  oracle : ℕ → String
  now : ℕ
  stars : List CelestialBody

/-- One step of a call sequence: run a reconciliation call on the current
constellation list and identity counter. -/
def runCallsStep (acc : List Constellation × ℕ) (call : CallInput) :
    List Constellation × ℕ :=
  let r := checkForConstellations call.oracle call.now acc.2 call.stars acc.1
  (r.constellations, r.nextId)

/-- A sequence of reconciliation calls starting from the empty
constellation list, threading the constellation list and the identity
counter from each call into the next. -/
def runCalls (calls : List CallInput) : List Constellation × ℕ :=
  calls.foldl runCallsStep ([], 0)

theorem runCalls_inv (calls : List CallInput) :
    GoodList (runCalls calls).1 ∧ IdsOk (runCalls calls).1 (runCalls calls).2 := by
  suffices h : ∀ (acc : List Constellation × ℕ), GoodList acc.1 → IdsOk acc.1 acc.2 →
      GoodList (calls.foldl runCallsStep acc).1
      ∧ IdsOk (calls.foldl runCallsStep acc).1 (calls.foldl runCallsStep acc).2 by
    refine h ([], 0) ?_ ?_ <;> constructor <;> simp [GoodList, IdsOk]
  induction calls with
  | nil => exact fun acc hG hI => ⟨hG, hI⟩
  | cons call rest ih =>
      intro acc hG hI
      have hstep := @checkForConstellations_preserves call.oracle call.now
        acc.2 call.stars acc.1 hG hI
      exact ih _ hstep.1 hstep.2.1

/-- C1: after any sequence of reconciliation calls starting from the empty
constellation list, the member sets of any two distinct constellations are
disjoint (each body id occurs in at most one constellation), and every
constellation has at least 3 distinct member body ids. -/
theorem claim_C1 (calls : List CallInput) :
    ((runCalls calls).1.Pairwise (fun c d => ∀ x ∈ c.starIds, x ∉ d.starIds))
    ∧ ∀ c ∈ (runCalls calls).1, c.starIds.Nodup ∧ 3 ≤ c.starIds.length := by
  have h := runCalls_inv calls
  exact ⟨h.1.1, h.1.2⟩

/-! ## Idempotence of reconciliation -/

/-- After a cluster has been reconciled, it has a unique home: exactly one
constellation intersects it, and that constellation contains it. -/
def UniqueHome (cs : List Constellation) (K : List String) : Prop :=
  ∃ C ∈ cs, (∀ x ∈ K, x ∈ C.starIds)
    ∧ ∀ D ∈ cs, (∃ x ∈ K, x ∈ D.starIds) → D = C

theorem filter_eq_singleton_of_unique {α : Type} {p : α → Bool} {l : List α}
    {a : α} (hnd : l.Nodup) (ha : a ∈ l) (hpa : p a = true)
    (huniq : ∀ b ∈ l, p b = true → b = a) : l.filter p = [a] := by
  induction l with
  | nil => cases ha
  | cons x t ih =>
      have hx := List.nodup_cons.mp hnd
      rcases List.mem_cons.mp ha with rfl | hat
      · rw [List.filter_cons_of_pos hpa]
        have ht : t.filter p = [] := by
          rw [List.filter_eq_nil_iff]
          intro b hb hpb
          exact hx.1 ((huniq b (List.mem_cons_of_mem _ hb) hpb) ▸ hb)
        rw [ht]
      · have hxa : x ≠ a := fun he => hx.1 (he ▸ hat)
        have hpx : p x = false := by
          by_cases hx2 : p x = true
          · exact absurd (huniq x (List.mem_cons_self _ _) hx2) hxa
          · simpa using hx2
        rw [List.filter_cons_of_neg (by simp [hpx])]
        exact ih hx.2 hat (fun b hb hpb => huniq b (List.mem_cons_of_mem _ hb) hpb)

/-- When a cluster has a unique home, the overlap filter returns exactly
that home. -/
theorem overlapsOf_of_uniqueHome {cs : List Constellation} {K : List String}
    (hnd : cs.Nodup) (hK : K ≠ []) (hU : UniqueHome cs K) :
    ∃ C, overlapsOf cs K = [C] ∧ (∀ x ∈ K, x ∈ C.starIds) := by
  obtain ⟨C, hC, hsub, huniq⟩ := hU
  obtain ⟨k, hk⟩ := List.exists_mem_of_ne_nil K hK
  refine ⟨C, filter_eq_singleton_of_unique hnd hC ?_ ?_, hsub⟩
  · simp only [List.any_eq_true]
    exact ⟨k, hsub k hk, by simpa using hk⟩
  · intro b hb hpb
    simp only [List.any_eq_true] at hpb
    obtain ⟨x, hxb, hxK⟩ := hpb
    exact huniq b hb ⟨x, by simpa using hxK, hxb⟩

/-- A cluster with a unique home is reconciled to no change at all. -/
theorem reconcileCluster_of_uniqueHome {oracle : ℕ → String} {now : ℕ}
    {st : RecState} {K : List String} (hnd : st.constellations.Nodup)
    (hK : K ≠ []) (hU : UniqueHome st.constellations K) :
    reconcileCluster oracle now st K = st := by
  obtain ⟨C, hov, hsub⟩ := overlapsOf_of_uniqueHome hnd hK hU
  rw [reconcileCluster_eq_merge hov]
  exact mergeBranch_inactive hsub

/-- Identity bookkeeping is preserved by each cluster step, with no
assumption on the member sets. -/
theorem reconcileCluster_preserves_ids {oracle : ℕ → String} {now : ℕ}
    {st : RecState} {K : List String}
    (hI : IdsOk st.constellations st.nextId) :
    IdsOk (reconcileCluster oracle now st K).constellations
      (reconcileCluster oracle now st K).nextId := by
  cases h : overlapsOf st.constellations K with
  | nil =>
      rw [reconcileCluster_eq_create h]
      simp only [createBranch]
      constructor
      · rw [List.map_append, List.nodup_append]
        refine ⟨hI.1, by simp, ?_⟩
        intro a ha1 ha2
        obtain ⟨c, hc, rfl⟩ := List.mem_map.mp ha1
        have he : c.id = st.nextId := by simpa using ha2
        exact absurd he (Nat.ne_of_lt (hI.2 c hc))
      · intro c hc
        rcases List.mem_append.mp hc with hc | hc
        · exact Nat.lt_succ_of_lt (hI.2 c hc)
        · rw [List.mem_singleton.mp hc]
          exact Nat.lt_succ_self _
  | cons p rest =>
      rw [reconcileCluster_eq_merge h,
        show (mergeBranch st K p rest).nextId = st.nextId from
          (mergeBranch_frame st K p rest).2]
      by_cases hcond :
          (K.any (fun id => !(p.starIds.contains id)) || !rest.isEmpty) = true
      · obtain ⟨hp, _, _⟩ := overlaps_head_facts hI.1 h
        have hmem := fun {d} => @mem_mergeBranch_active st K p rest d hI.1 h hcond
        constructor
        · show ((mergeBranch st K p rest).constellations.map (·.id)).Nodup
          rw [mergeBranch_active hcond]
          have heq : ((st.constellations.filter
                (fun c => !(rest.any (fun o => o.id == c.id)))).map
              (fun c =>
                if c.id = p.id then
                  { c with starIds :=
                      dedupFirst (p.starIds ++ K ++ rest.flatMap (·.starIds)) }
                else c)).map (·.id)
              = (st.constellations.filter
                (fun c => !(rest.any (fun o => o.id == c.id)))).map (·.id) := by
            rw [List.map_map]
            refine List.map_congr_left ?_
            intro c _
            by_cases hc : c.id = p.id <;> simp [hc]
          rw [heq]
          exact ((List.filter_sublist _).map _).nodup hI.1
        · intro d hd
          rcases hmem.mp hd with rfl | ⟨hd', _, _⟩
          · exact hI.2 p hp
          · exact hI.2 d hd'
      · rw [mergeBranch_cond_false (Bool.not_eq_true _ ▸ hcond)]
        exact hI

/-- Reconciling a cluster gives it a unique home. -/
theorem uniqueHome_of_step {oracle : ℕ → String} {now : ℕ} {st : RecState}
    {K : List String} (hI : IdsOk st.constellations st.nextId) :
    UniqueHome (reconcileCluster oracle now st K).constellations K := by
  cases h : overlapsOf st.constellations K with
  | nil =>
      rw [reconcileCluster_eq_create h]
      simp only [createBranch]
      refine ⟨⟨st.nextId, oracle K.length, K, now⟩,
        List.mem_append.mpr (Or.inr (List.mem_singleton_self _)), fun x hx => hx, ?_⟩
      intro D hD ⟨x, hxK, hxD⟩
      rcases List.mem_append.mp hD with hD | hD
      · exact absurd (mem_overlapsOf.mpr ⟨hD, x, hxD, hxK⟩) (by simp [h])
      · exact List.mem_singleton.mp hD
  | cons p rest =>
      rw [reconcileCluster_eq_merge h]
      by_cases hcond :
          (K.any (fun id => !(p.starIds.contains id)) || !rest.isEmpty) = true
      · have hmem := fun {d} => @mem_mergeBranch_active st K p rest d hI.1 h hcond
        refine ⟨_, hmem.mpr (Or.inl rfl), ?_, ?_⟩
        · intro x hx
          exact mem_mergedIds.mpr (Or.inr (Or.inl hx))
        · intro D hD ⟨x, hxK, hxD⟩
          rcases hmem.mp hD with rfl | ⟨hD', hDp, hDfree⟩
          · rfl
          · have hDov : D ∈ overlapsOf st.constellations K :=
              mem_overlapsOf.mpr ⟨hD', x, hxD, hxK⟩
            rw [h] at hDov
            rcases List.mem_cons.mp hDov with rfl | hDr
            · exact absurd rfl hDp
            · exact absurd rfl (hDfree D hDr)
      · rw [mergeBranch_cond_false (Bool.not_eq_true _ ▸ hcond)]
        have hparts : K.any (fun id => !(p.starIds.contains id)) = false
            ∧ rest.isEmpty = true := by
          by_cases hA : K.any (fun id => !(p.starIds.contains id)) = true
          · exact absurd (by rw [hA]; rfl) hcond
          · by_cases hE : rest.isEmpty = true
            · exact ⟨by simpa using hA, hE⟩
            · have hE' : rest.isEmpty = false := by simpa using hE
              refine absurd ?_ hcond
              rw [hE']
              simp
        have hrest : rest = [] := by
          cases rest with
          | nil => rfl
          | cons a t => simp at hparts
        have hsub : ∀ x ∈ K, x ∈ p.starIds := by
          have h1 := hparts.1
          simp only [List.any_eq_false, Bool.not_eq_true'] at h1
          intro x hx
          simpa using h1 x hx
        subst hrest
        have hp : p ∈ st.constellations := by
          have := overlapsOf_sublist st.constellations K
          rw [h] at this
          exact this.mem (List.mem_singleton_self _)
        refine ⟨p, hp, hsub, ?_⟩
        intro D hD ⟨x, hxK, hxD⟩
        have hDov : D ∈ overlapsOf st.constellations K :=
          mem_overlapsOf.mpr ⟨hD, x, hxD, hxK⟩
        rw [h] at hDov
        exact List.mem_singleton.mp hDov

/-- A unique home for one cluster survives the reconciliation of a cluster
disjoint from it. -/
theorem uniqueHome_preserved {oracle : ℕ → String} {now : ℕ} {st : RecState}
    {K K' : List String} (hI : IdsOk st.constellations st.nextId)
    (hdisj : ∀ x ∈ K', x ∉ K)
    (hU : UniqueHome st.constellations K) :
    UniqueHome (reconcileCluster oracle now st K').constellations K := by
  obtain ⟨C, hC, hsub, huniq⟩ := hU
  cases h : overlapsOf st.constellations K' with
  | nil =>
      rw [reconcileCluster_eq_create h]
      simp only [createBranch]
      refine ⟨C, List.mem_append.mpr (Or.inl hC), hsub, ?_⟩
      intro D hD ⟨x, hxK, hxD⟩
      rcases List.mem_append.mp hD with hD | hD
      · exact huniq D hD ⟨x, hxK, hxD⟩
      · rw [List.mem_singleton.mp hD] at hxD
        exact absurd hxK (hdisj x hxD)
  | cons p rest =>
      rw [reconcileCluster_eq_merge h]
      by_cases hcond :
          (K'.any (fun id => !(p.starIds.contains id)) || !rest.isEmpty) = true
      · have hmem := fun {d} => @mem_mergeBranch_active st K' p rest d hI.1 h hcond
        have hinj := constellation_id_injOn hI.1
        obtain ⟨hp, hrestmem, hrid⟩ := overlaps_head_facts hI.1 h
        by_cases hCov : C ∈ overlapsOf st.constellations K'
        · -- the home is swallowed by the merge target
          refine ⟨_, hmem.mpr (Or.inl rfl), ?_, ?_⟩
          · intro x hx
            have hxC := hsub x hx
            rw [h] at hCov
            rcases List.mem_cons.mp hCov with rfl | hCr
            · exact mem_mergedIds.mpr (Or.inl hxC)
            · exact mem_mergedIds.mpr (Or.inr (Or.inr ⟨C, hCr, hxC⟩))
          · intro D hD ⟨x, hxK, hxD⟩
            rcases hmem.mp hD with rfl | ⟨hD', hDp, hDfree⟩
            · rfl
            · have hDC : D = C := huniq D hD' ⟨x, hxK, hxD⟩
              subst hDC
              rw [h] at hCov
              rcases List.mem_cons.mp hCov with he | hDr
              · exact absurd (he ▸ rfl) hDp
              · exact absurd rfl (hDfree D hDr)
        · -- the home is untouched by the merge
          have hCp : C ≠ p := fun he => hCov (h ▸ (he ▸ List.mem_cons_self p rest))
          have hCid : C.id ≠ p.id := fun he => hCp (hinj C hC p hp he)
          have hCfree : ∀ o ∈ rest, o.id ≠ C.id := by
            intro o ho he
            have : o = C := hinj o (hrestmem o ho) C hC he
            exact hCov (h ▸ List.mem_cons_of_mem p (this ▸ ho))
          refine ⟨C, hmem.mpr (Or.inr ⟨hC, hCid, hCfree⟩), hsub, ?_⟩
          intro D hD ⟨x, hxK, hxD⟩
          rcases hmem.mp hD with rfl | ⟨hD', _, _⟩
          · -- the merge target cannot contain ids of K
            exfalso
            rcases mem_mergedIds.mp hxD with hx | hx | ⟨o, ho, hx⟩
            · exact hCp (huniq p hp ⟨x, hxK, hx⟩).symm
            · exact hdisj x hx hxK
            · have : o = C := huniq o (hrestmem o ho) ⟨x, hxK, hx⟩
              exact hCov (h ▸ List.mem_cons_of_mem p (this ▸ ho))
          · exact huniq D hD' ⟨x, hxK, hxD⟩
      · rw [mergeBranch_cond_false (Bool.not_eq_true _ ▸ hcond)]
        exact ⟨C, hC, hsub, huniq⟩

theorem foldl_preserves_ids {oracle : ℕ → String} {now : ℕ} :
    ∀ (clusters : List (List String)) (st : RecState),
      IdsOk st.constellations st.nextId →
      IdsOk (clusters.foldl (reconcileCluster oracle now) st).constellations
        (clusters.foldl (reconcileCluster oracle now) st).nextId := by
  intro clusters
  induction clusters with
  | nil => exact fun st hI => hI
  | cons K rest ih => exact fun st hI => ih _ (reconcileCluster_preserves_ids hI)

theorem foldl_preserves_uniqueHome {oracle : ℕ → String} {now : ℕ} :
    ∀ (clusters : List (List String)) (st : RecState) (K : List String),
      IdsOk st.constellations st.nextId →
      (∀ K' ∈ clusters, ∀ x ∈ K', x ∉ K) →
      UniqueHome st.constellations K →
      UniqueHome
        ((clusters.foldl (reconcileCluster oracle now) st).constellations) K := by
  intro clusters
  induction clusters with
  | nil => exact fun st K _ _ hU => hU
  | cons K' rest ih =>
      intro st K hI hdisj hU
      exact ih _ K (reconcileCluster_preserves_ids hI)
        (fun L hL => hdisj L (List.mem_cons_of_mem _ hL))
        (uniqueHome_preserved hI (hdisj K' (List.mem_cons_self _ _)) hU)

/-- After the cluster loop, every processed cluster has a unique home. -/
theorem foldl_establishes_uniqueHome {oracle : ℕ → String} {now : ℕ} :
    ∀ (clusters : List (List String)) (st : RecState),
      IdsOk st.constellations st.nextId →
      clusters.Pairwise (fun K K' => ∀ x ∈ K, x ∉ K') →
      ∀ K ∈ clusters,
        UniqueHome
          ((clusters.foldl (reconcileCluster oracle now) st).constellations) K := by
  intro clusters
  induction clusters with
  | nil => intro st _ _ K hK; cases hK
  | cons K0 rest ih =>
      intro st hI hpair K hK
      have hI' : IdsOk (reconcileCluster oracle now st K0).constellations
          (reconcileCluster oracle now st K0).nextId :=
        reconcileCluster_preserves_ids hI
      rcases List.mem_cons.mp hK with rfl | hKr
      · rw [List.foldl_cons]
        refine foldl_preserves_uniqueHome rest _ K hI' ?_ (uniqueHome_of_step hI)
        intro K' hK' x hx hxK
        exact (List.pairwise_cons.mp hpair).1 K' hK' x hxK hx
      · rw [List.foldl_cons]
        exact ih _ hI' (List.pairwise_cons.mp hpair).2 K hKr

/-- When every cluster already has a unique home, the cluster loop is the
identity. -/
theorem foldl_id_of_uniqueHome {oracle : ℕ → String} {now : ℕ} :
    ∀ (clusters : List (List String)) (st : RecState),
      st.constellations.Nodup →
      (∀ K ∈ clusters, K ≠ []) →
      (∀ K ∈ clusters, UniqueHome st.constellations K) →
      clusters.foldl (reconcileCluster oracle now) st = st := by
  intro clusters
  induction clusters with
  | nil => exact fun st _ _ _ => rfl
  | cons K rest ih =>
      intro st hnd hne hU
      rw [List.foldl_cons,
        reconcileCluster_of_uniqueHome hnd (hne K (List.mem_cons_self _ _))
          (hU K (List.mem_cons_self _ _))]
      exact ih st hnd (fun L hL => hne L (List.mem_cons_of_mem _ hL))
        (fun L hL => hU L (List.mem_cons_of_mem _ hL))

/-- C2 (amended): for every body set and every constellation list whose
constellation ids are pairwise distinct and below the identity counter,
running `checkForConstellations` a second time on the same body set with
the first call's output list as input returns that list unchanged, emits no
discovery event, allocates no identity, and reports no change. -/
theorem claim_C2 {stars : List CelestialBody} {cs : List Constellation}
    {oracle1 oracle2 : ℕ → String} {now1 now2 nid1 nid2 : ℕ}
    (hids : (cs.map (·.id)).Nodup) (hfresh : ∀ c ∈ cs, c.id < nid1) :
    checkForConstellations oracle2 now2 nid2 stars
        (checkForConstellations oracle1 now1 nid1 stars cs).constellations
      = ⟨(checkForConstellations oracle1 now1 nid1 stars cs).constellations,
          nid2, [], false⟩ := by
  by_cases hlen : stars.length < 3
  · unfold checkForConstellations
    rw [if_pos hlen, if_pos hlen]
  · have hspec := findClusters_spec stars
    have hne : ∀ K ∈ findClusters stars, K ≠ [] := by
      intro K hK he
      have := hspec.1 K hK
      rw [he] at this
      simp at this
    have hI0 : IdsOk cs nid1 := ⟨hids, hfresh⟩
    -- the first call's output
    have hL1 : (checkForConstellations oracle1 now1 nid1 stars cs).constellations
        = ((findClusters stars).foldl (reconcileCluster oracle1 now1)
            ⟨cs, nid1, [], false⟩).constellations := by
      unfold checkForConstellations
      rw [if_neg hlen]
    have hIL1 := @foldl_preserves_ids oracle1 now1 (findClusters stars)
      ⟨cs, nid1, [], false⟩ hI0
    have hUL1 := @foldl_establishes_uniqueHome oracle1 now1 (findClusters stars)
      ⟨cs, nid1, [], false⟩ hI0 hspec.2.2.2.2
    unfold checkForConstellations
    rw [if_neg hlen, if_neg hlen]
    exact foldl_id_of_uniqueHome (findClusters stars) _
      (hIL1.1.of_map _) hne hUL1

/-! ## Concrete scenario data -/

/-- Scenario body at (0,0). -/
def bodyA : CelestialBody :=
  ⟨"A", "A", CelestialType.STAR, "", 0, none, none, ⟨0, 0⟩, "#fff", 0, false⟩

/-- Scenario body at (50,50). -/
def bodyB : CelestialBody :=
  ⟨"B", "B", CelestialType.STAR, "", 0, none, none, ⟨50, 50⟩, "#fff", 0, false⟩

/-- Scenario body at (90,90). -/
def bodyC : CelestialBody :=
  ⟨"C", "C", CelestialType.STAR, "", 0, none, none, ⟨90, 90⟩, "#fff", 0, false⟩

/-- Scenario body at (130,130), within 180 units of (90,90) only. -/
def bodyD : CelestialBody :=
  ⟨"D", "D", CelestialType.STAR, "", 0, none, none, ⟨130, 130⟩, "#fff", 0, false⟩

/-- The Scenario-A body set: three mutually close bodies. -/
def scenarioStars : List CelestialBody := [bodyA, bodyB, bodyC]

/-- A constellation list with a duplicated identity (impossible under fresh
uuid allocation, but allowed by the letter of the idempotence claim). -/
def dupIdConstellations : List Constellation :=
  [⟨0, "X", ["A", "b", "c"], 0⟩, ⟨0, "Y", ["p", "q", "r"], 0⟩]

/-- Witness for C2: with distinct ids, the second reconciliation call on
the Scenario-A body set returns the first call's list unchanged and emits
nothing. -/
theorem claim_C2_witness :
    ((([] : List Constellation).map (·.id)).Nodup)
    ∧ (∀ c ∈ ([] : List Constellation), c.id < 0)
    ∧ checkForConstellations (fun _ => "M") 9 1 scenarioStars
        (checkForConstellations (fun _ => "N") 7 0 scenarioStars []).constellations
      = ⟨(checkForConstellations (fun _ => "N") 7 0 scenarioStars []).constellations,
          1, [], false⟩ :=
  ⟨by decide, by decide,
    @claim_C2 scenarioStars [] (fun _ => "N") (fun _ => "M") 7 9 0 1
      (by decide) (by decide)⟩

/-- Counterexample to C2 as frozen (quantified over every constellation
list): with a duplicated constellation id in the input list, the second
call does not return its input list. -/
theorem claim_C2_counterexample :
    (checkForConstellations (fun _ => "M") 9 6 scenarioStars
        (checkForConstellations (fun _ => "N") 7 5 scenarioStars
          dupIdConstellations).constellations).constellations
      ≠ (checkForConstellations (fun _ => "N") 7 5 scenarioStars
          dupIdConstellations).constellations := by
  decide

/-! ## Cluster-shape and distance-threshold claims -/

theorem adjRel_mem_ids {stars : List CelestialBody} {a b : String}
    (h : adjRel stars a b) : b ∈ stars.map (·.id) := by
  unfold adjRel adjacentB at h
  simp only [List.any_eq_true, Bool.and_eq_true, beq_iff_eq] at h
  obtain ⟨s1, _, s2, hs2, ⟨⟨⟨_, hb⟩, _⟩, _⟩⟩ := h
  exact List.mem_map.mpr ⟨s2, hs2, hb.symm⟩

theorem reaches_mem_ids {stars : List CelestialBody} {a x : String}
    (h : reaches stars a x) : x = a ∨ x ∈ stars.map (·.id) := by
  induction h with
  | refl => exact Or.inl rfl
  | tail _ hstep _ => exact Or.inr (adjRel_mem_ids hstep)

theorem reaches_of_common_root {stars : List CelestialBody} {r a b : String}
    (ha : reaches stars r a) (hb : reaches stars r b) : reaches stars a b :=
  Relation.ReflTransGen.trans (reaches_symm ha) hb

/-- An empty cluster list makes the whole reconciliation call a no-op. -/
theorem checkForConstellations_noop {stars : List CelestialBody}
    (h : findClusters stars = []) :
    ∀ (oracle : ℕ → String) (now nid : ℕ) (cs : List Constellation),
      checkForConstellations oracle now nid stars cs = ⟨cs, nid, [], false⟩ := by
  intro oracle now nid cs
  unfold checkForConstellations
  split
  · rfl
  · rw [h]
    rfl

/-- Every member of every cluster lies in a connected component with at
least 3 elements. -/
theorem cluster_component_large {stars : List CelestialBody} :
    ∀ K ∈ findClusters stars, ∀ b ∈ K, 3 ≤ (componentSet stars b).encard := by
  intro K hK b hb
  have hspec := findClusters_spec stars
  have hlen := hspec.1 K hK
  have hnd := hspec.2.1 K hK
  obtain ⟨s, _, hroot⟩ := hspec.2.2.2.1 K hK
  have hreach : ∀ x ∈ K, reaches stars b x :=
    fun x hx => reaches_of_common_root (hroot b hb) (hroot x hx)
  match K, hlen, hnd, hreach with
  | x :: y :: z :: t, _, hnd, hreach =>
      have hxy : x ≠ y := by
        simp only [List.nodup_cons, List.mem_cons] at hnd
        exact fun he => hnd.1 (Or.inl he)
      have hxz : x ≠ z := by
        simp only [List.nodup_cons, List.mem_cons] at hnd
        exact fun he => hnd.1 (Or.inr (Or.inl he))
      have hyz : y ≠ z := by
        simp only [List.nodup_cons, List.mem_cons] at hnd
        exact fun he => hnd.2.1 (Or.inl he)
      have hsub : ({x, y, z} : Set String) ⊆ componentSet stars b := by
        intro w hw
        rcases hw with rfl | rfl | rfl
        · exact hreach w (by simp)
        · exact hreach w (by simp)
        · exact hreach w (by simp)
      calc (3 : ℕ∞) = ({x, y, z} : Set String).encard := by
            rw [Set.encard_insert_of_not_mem (by simp [hxy, hxz]),
              Set.encard_pair hyz]
            rfl
        _ ≤ (componentSet stars b).encard := Set.encard_mono hsub

/-- With fewer than 3 bodies there are no clusters at all. -/
theorem findClusters_eq_nil_of_short {stars : List CelestialBody}
    (h : stars.length < 3) : findClusters stars = [] := by
  have hspec := findClusters_spec stars
  rw [List.eq_nil_iff_forall_not_mem]
  intro K hK
  have h1 := hspec.1 K hK
  have h2 := hspec.2.1 K hK
  have h3 := hspec.2.2.1 K hK
  have : K.length ≤ stars.length := by
    calc K.length ≤ (stars.map (·.id)).length := nodup_subset_length_le h2 h3
      _ = stars.length := List.length_map _ _
  omega

/-- When no component reaches size 3 there are no clusters at all. -/
theorem findClusters_eq_nil_of_small_components {stars : List CelestialBody}
    (h : ∀ s ∈ stars, (componentSet stars s.id).encard < 3) :
    findClusters stars = [] := by
  have hspec := findClusters_spec stars
  rw [List.eq_nil_iff_forall_not_mem]
  intro K hK
  have h1 := hspec.1 K hK
  have h3 := hspec.2.2.1 K hK
  obtain ⟨b, hb⟩ := List.exists_mem_of_ne_nil K (by
    intro he
    rw [he] at h1
    simp at h1)
  obtain ⟨s, hs, hsid⟩ := List.mem_map.mp (h3 b hb)
  have hbig := cluster_component_large K hK b hb
  have hlt := h s hs
  rw [hsid] at hlt
  exact absurd hbig (not_le.mpr hlt)

/-- C7: every cluster produced by the graph-building step has at least 3
(distinct) members; every member's connected component has at least 3
elements, so isolated bodies and bodies in components of size 1 or 2 never
appear in a cluster; with fewer than 3 bodies, or with no component of
size 3, the cluster list is empty and reconciliation changes nothing and
emits nothing. -/
theorem claim_C7 (stars : List CelestialBody) :
    (∀ K ∈ findClusters stars, 3 ≤ K.length ∧ K.Nodup)
    ∧ (∀ K ∈ findClusters stars, ∀ b ∈ K, 3 ≤ (componentSet stars b).encard)
    ∧ (stars.length < 3 →
        findClusters stars = []
        ∧ ∀ (oracle : ℕ → String) (now nid : ℕ) (cs : List Constellation),
            checkForConstellations oracle now nid stars cs = ⟨cs, nid, [], false⟩)
    ∧ ((∀ s ∈ stars, (componentSet stars s.id).encard < 3) →
        findClusters stars = []
        ∧ ∀ (oracle : ℕ → String) (now nid : ℕ) (cs : List Constellation),
            checkForConstellations oracle now nid stars cs = ⟨cs, nid, [], false⟩) := by
  have hspec := findClusters_spec stars
  refine ⟨fun K hK => ⟨hspec.1 K hK, hspec.2.1 K hK⟩, cluster_component_large,
    fun h => ?_, fun h => ?_⟩
  · have he := findClusters_eq_nil_of_short h
    exact ⟨he, checkForConstellations_noop he⟩
  · have he := findClusters_eq_nil_of_small_components h
    exact ⟨he, checkForConstellations_noop he⟩

/-- Witness for C7: two bodies 70.7 units apart (Scenario-B flavour) form
no cluster; reconciliation is a no-op, both via the body count and via the
component bound. -/
theorem claim_C7_witness :
    ([bodyA, bodyB].length < 3)
    ∧ findClusters [bodyA, bodyB] = []
    ∧ checkForConstellations (fun _ => "N") 0 0 [bodyA, bodyB] []
        = ⟨[], 0, [], false⟩
    ∧ (∀ s ∈ [bodyA, bodyB], (componentSet [bodyA, bodyB] s.id).encard < 3)
    ∧ findClusters [bodyA, bodyB] = [] := by
  have hshort : [bodyA, bodyB].length < 3 := by decide
  have hsmall : ∀ s ∈ [bodyA, bodyB], (componentSet [bodyA, bodyB] s.id).encard < 3 := by
    intro s hs
    have hsub : componentSet [bodyA, bodyB] s.id ⊆ {"A", "B"} := by
      intro x hx
      rcases reaches_mem_ids hx with rfl | hxid
      · rcases List.mem_cons.mp hs with rfl | hs2
        · exact Or.inl rfl
        · rcases List.mem_cons.mp hs2 with rfl | hs3
          · exact Or.inr rfl
          · cases hs3
      · rcases List.mem_map.mp hxid with ⟨t, ht, rfl⟩
        rcases List.mem_cons.mp ht with rfl | ht2
        · exact Or.inl rfl
        · rcases List.mem_cons.mp ht2 with rfl | ht3
          · exact Or.inr rfl
          · cases ht3
    calc (componentSet [bodyA, bodyB] s.id).encard
        ≤ ({"A", "B"} : Set String).encard := Set.encard_mono hsub
      _ = 2 := Set.encard_pair (by decide)
      _ < 3 := by
          rw [show (2 : ℕ∞) < 3 ↔ True from by norm_num]
          trivial
  refine ⟨hshort, ((claim_C7 [bodyA, bodyB]).2.2.1 hshort).1,
    ((claim_C7 [bodyA, bodyB]).2.2.1 hshort).2 (fun _ => "N") 0 0 [],
    hsmall, ((claim_C7 [bodyA, bodyB]).2.2.2 hsmall).1⟩

/-- Adjacency between the ids of two listed bodies holds exactly when the
bodies are distinct and their squared distance is below the threshold. -/
theorem adjRel_iff {stars : List CelestialBody}
    (hids : (stars.map (·.id)).Nodup) {s1 s2 : CelestialBody}
    (h1 : s1 ∈ stars) (h2 : s2 ∈ stars) :
    adjRel stars s1.id s2.id ↔
      s1.id ≠ s2.id ∧ distSq s1.coordinates s2.coordinates < MAX_DIST ^ 2 := by
  have hinj := List.inj_on_of_nodup_map hids
  unfold adjRel adjacentB withinMaxDist
  simp only [List.any_eq_true, Bool.and_eq_true, beq_iff_eq, Bool.not_eq_true',
    beq_eq_false_iff_ne, ne_eq, decide_eq_true_eq]
  constructor
  · rintro ⟨t1, ht1, t2, ht2, ⟨⟨⟨ha, hb⟩, hne⟩, hd⟩⟩
    have e1 : t1 = s1 := hinj ht1 h1 ha.symm
    have e2 : t2 = s2 := hinj ht2 h2 hb.symm
    subst e1
    subst e2
    exact ⟨hne, hd⟩
  · rintro ⟨hne, hd⟩
    exact ⟨s1, h1, s2, h2, ⟨⟨⟨rfl, rfl⟩, hne⟩, hd⟩⟩

/-- C8: two listed bodies are adjacent iff they are distinct and the
Euclidean distance between their positions is strictly below 180; and any
two members of one cluster are connected by a chain of such adjacency
steps (so bodies 180 or more apart share a cluster only through
intermediaries). -/
theorem claim_C8 {stars : List CelestialBody}
    (hids : (stars.map (·.id)).Nodup) :
    (∀ s1 ∈ stars, ∀ s2 ∈ stars,
        (adjRel stars s1.id s2.id ↔
          s1.id ≠ s2.id ∧
            Real.sqrt (((s1.coordinates.x - s2.coordinates.x : ℚ) : ℝ) ^ 2
                + ((s1.coordinates.y - s2.coordinates.y : ℚ) : ℝ) ^ 2) < 180))
    ∧ (∀ K ∈ findClusters stars, ∀ a ∈ K, ∀ b ∈ K, reaches stars a b) := by
  constructor
  · intro s1 h1 s2 h2
    rw [adjRel_iff hids h1 h2]
    have hcast : Real.sqrt (((s1.coordinates.x - s2.coordinates.x : ℚ) : ℝ) ^ 2
          + ((s1.coordinates.y - s2.coordinates.y : ℚ) : ℝ) ^ 2) < 180
        ↔ distSq s1.coordinates s2.coordinates < MAX_DIST ^ 2 := by
      rw [Real.sqrt_lt' (by norm_num : (0 : ℝ) < 180)]
      unfold distSq MAX_DIST
      rw [show ((s1.coordinates.x - s2.coordinates.x : ℚ) : ℝ) ^ 2
            + ((s1.coordinates.y - s2.coordinates.y : ℚ) : ℝ) ^ 2
          = ((((s1.coordinates.x - s2.coordinates.x) ^ 2
            + (s1.coordinates.y - s2.coordinates.y) ^ 2 : ℚ)) : ℝ) by push_cast; ring,
        show ((180 : ℝ) ^ 2) = ((((180 : ℚ) ^ 2 : ℚ)) : ℝ) by push_cast; ring]
      exact Rat.cast_lt
    rw [hcast]
  · intro K hK a ha b hb
    obtain ⟨s, _, hroot⟩ := (findClusters_spec stars).2.2.2.1 K hK
    exact reaches_of_common_root (hroot a ha) (hroot b hb)

/-- Witness for C8: on the Scenario-A bodies the equivalence is
instantiated at two concrete bodies 70.7 units apart, which are indeed
adjacent. -/
theorem claim_C8_witness :
    ((scenarioStars.map (·.id)).Nodup)
    ∧ adjRel scenarioStars bodyA.id bodyB.id
    ∧ (adjRel scenarioStars bodyA.id bodyB.id ↔
        bodyA.id ≠ bodyB.id ∧
          Real.sqrt (((bodyA.coordinates.x - bodyB.coordinates.x : ℚ) : ℝ) ^ 2
              + ((bodyA.coordinates.y - bodyB.coordinates.y : ℚ) : ℝ) ^ 2) < 180) :=
  ⟨by decide, by unfold adjRel; decide,
    (claim_C8 (by decide)).1 bodyA (by decide) bodyB (by decide)⟩

/-! ## Frame and effect of a reconciliation call -/

/-- Applying the rewards adds each event's starlight and data amounts and
never touches focus. -/
theorem applyRewards_spec :
    ∀ (events : List DiscoveryEvent) (r : GameResources),
      (applyRewards r events).starlight
          = r.starlight + ((events.map (fun e => (e.rewardStarlight : ℚ))).sum)
      ∧ (applyRewards r events).data
          = r.data + ((events.map (fun e => (e.rewardData : ℚ))).sum)
      ∧ (applyRewards r events).focus = r.focus := by
  intro events
  induction events with
  | nil => intro r; simp [applyRewards]
  | cons e t ih =>
      intro r
      have := ih { r with
        starlight := r.starlight + (e.rewardStarlight : ℚ)
        data := r.data + (e.rewardData : ℚ) }
      refine ⟨?_, ?_, ?_⟩
      · rw [show applyRewards r (e :: t)
            = applyRewards { r with
                starlight := r.starlight + (e.rewardStarlight : ℚ)
                data := r.data + (e.rewardData : ℚ) } t from rfl,
          this.1]
        simp only [List.map_cons, List.sum_cons]
        ring
      · rw [show applyRewards r (e :: t)
            = applyRewards { r with
                starlight := r.starlight + (e.rewardStarlight : ℚ)
                data := r.data + (e.rewardData : ℚ) } t from rfl,
          this.2.1]
        simp only [List.map_cons, List.sum_cons]
        ring
      · rw [show applyRewards r (e :: t)
            = applyRewards { r with
                starlight := r.starlight + (e.rewardStarlight : ℚ)
                data := r.data + (e.rewardData : ℚ) } t from rfl,
          this.2.2]

/-- Through the cluster loop, every emitted event carries the creation
reward formula for some cluster size of at least 3, and the identity
counter advances exactly once per emitted event. -/
theorem foldl_events_inv {oracle : ℕ → String} {now : ℕ} {nid : ℕ} :
    ∀ (clusters : List (List String)) (st : RecState),
      (∀ K ∈ clusters, 3 ≤ K.length) →
      (∀ e ∈ st.events, ∃ k, 3 ≤ k
        ∧ e.rewardStarlight = 50 + k * 10 ∧ e.rewardData = 20 + k * 5) →
      st.nextId = nid + st.events.length →
      (∀ e ∈ (clusters.foldl (reconcileCluster oracle now) st).events,
        ∃ k, 3 ≤ k
          ∧ e.rewardStarlight = 50 + k * 10 ∧ e.rewardData = 20 + k * 5)
      ∧ (clusters.foldl (reconcileCluster oracle now) st).nextId
          = nid + (clusters.foldl (reconcileCluster oracle now) st).events.length := by
  intro clusters
  induction clusters with
  | nil => exact fun st _ hev hacc => ⟨hev, hacc⟩
  | cons K rest ih =>
      intro st hKs hev hacc
      rw [List.foldl_cons]
      have hK3 := hKs K (List.mem_cons_self _ _)
      have hrest := fun L hL => hKs L (List.mem_cons_of_mem K hL)
      cases h : overlapsOf st.constellations K with
      | nil =>
          rw [reconcileCluster_eq_create h]
          refine ih _ hrest ?_ ?_
          · intro e he
            simp only [createBranch, List.mem_append, List.mem_singleton] at he
            rcases he with he | rfl
            · exact hev e he
            · exact ⟨K.length, hK3, rfl, rfl⟩
          · simp only [createBranch, List.length_append, List.length_singleton]
            omega
      | cons p tail =>
          rw [reconcileCluster_eq_merge h]
          refine ih _ hrest ?_ ?_
          · intro e he
            rw [(mergeBranch_frame st K p tail).1] at he
            exact hev e he
          · rw [(mergeBranch_frame st K p tail).1,
              (mergeBranch_frame st K p tail).2]
            exact hacc

/-- C10: a reconciliation call leaves the body list untouched and focus
unchanged; its only resource effect is adding, once per emitted creation
event, the formula reward (50 + 10k starlight and 20 + 5k data for a
cluster of size k at least 3); starlight and data never decrease; and the
number of emitted events equals the number of freshly allocated
constellation identities. -/
theorem claim_C10 (oracle : ℕ → String) (now nid : ℕ) (gs : GameState) :
    (runCheck oracle now nid gs).1.stars = gs.stars
    ∧ (runCheck oracle now nid gs).1.resources.focus = gs.resources.focus
    ∧ (runCheck oracle now nid gs).1.resources.starlight
        = gs.resources.starlight
          + (((runCheck oracle now nid gs).2.1.map
              (fun e => (e.rewardStarlight : ℚ))).sum)
    ∧ (runCheck oracle now nid gs).1.resources.data
        = gs.resources.data
          + (((runCheck oracle now nid gs).2.1.map
              (fun e => (e.rewardData : ℚ))).sum)
    ∧ gs.resources.starlight ≤ (runCheck oracle now nid gs).1.resources.starlight
    ∧ gs.resources.data ≤ (runCheck oracle now nid gs).1.resources.data
    ∧ (∀ e ∈ (runCheck oracle now nid gs).2.1,
        ∃ k, 3 ≤ k
          ∧ e.rewardStarlight = 50 + k * 10 ∧ e.rewardData = 20 + k * 5)
    ∧ nid + (runCheck oracle now nid gs).2.1.length
        = (runCheck oracle now nid gs).2.2 := by
  have hev : (∀ e ∈ (checkForConstellations oracle now nid gs.stars
        gs.constellations).events,
        ∃ k, 3 ≤ k
          ∧ e.rewardStarlight = 50 + k * 10 ∧ e.rewardData = 20 + k * 5)
      ∧ (checkForConstellations oracle now nid gs.stars gs.constellations).nextId
          = nid + (checkForConstellations oracle now nid gs.stars
              gs.constellations).events.length := by
    unfold checkForConstellations
    split
    · exact ⟨(by intro e he; cases he), (by simp)⟩
    · exact foldl_events_inv (findClusters gs.stars)
        ⟨gs.constellations, nid, [], false⟩
        (fun K hK => (findClusters_spec gs.stars).1 K hK)
        (by intro e he; cases he) (by simp)
  have happ := applyRewards_spec
    (checkForConstellations oracle now nid gs.stars gs.constellations).events
    gs.resources
  have hnonneg1 : 0 ≤ (((checkForConstellations oracle now nid gs.stars
      gs.constellations).events.map (fun e => (e.rewardStarlight : ℚ))).sum) := by
    refine List.sum_nonneg ?_
    intro q hq
    obtain ⟨e, _, rfl⟩ := List.mem_map.mp hq
    positivity
  have hnonneg2 : 0 ≤ (((checkForConstellations oracle now nid gs.stars
      gs.constellations).events.map (fun e => (e.rewardData : ℚ))).sum) := by
    refine List.sum_nonneg ?_
    intro q hq
    obtain ⟨e, _, rfl⟩ := List.mem_map.mp hq
    positivity
  simp only [runCheck]
  refine ⟨trivial, happ.2.2, happ.1, happ.2.1, ?_, ?_, hev.1, hev.2.symm⟩
  · rw [happ.1]
    linarith
  · rw [happ.2.1]
    linarith

/-! ## The naming oracle and its fallback (`src/services/gemini.ts`) -/

/-- Outcome of the naming-oracle call in `generateConstellationName`:
either the request succeeded and the parsed JSON carries an optional
`name` field, or the request (or the JSON parse) failed. -/
inductive OracleOutcome where
  | success (nameField : Option String)
  | failure
deriving DecidableEq

/-- The fixed pool of first words of the fallback name
(`src/unnamed/part_000` line 110). -/
def prefixes : List String :=
  ["Alpha", "Beta", "Gamma", "Delta", "The Great", "The Lesser", "Northern",
    "Southern"]

/-- The fixed pool of root words of the fallback name (line 111). -/
def roots : List String :=
  ["Hydra", "Lion", "Crown", "Arrow", "Cross", "Bear", "Serpent", "Eagle"]

/-- `generateConstellationName` (lines 90-114): on success return the
parsed `name` unless it is falsy (empty), in which case a `Cluster NNNN`
name is produced; on failure compose a name from the prefix and root
pools.  The `Math.floor(Math.random() * len)` draws are modelled as the
inputs `r1 r2 r3` taken modulo the pool sizes. -/
def generateConstellationName (outcome : OracleOutcome) (r1 r2 r3 : ℕ)
    (starCount : ℕ) : String :=
  match outcome with
  | OracleOutcome.success nameField =>
      match nameField with
      | some n => if n = "" then "Cluster " ++ toString (r3 % 9999) else n
      | none => "Cluster " ++ toString (r3 % 9999)
  | OracleOutcome.failure =>
      prefixes.getD (r1 % prefixes.length) ""
        ++ " " ++ roots.getD (r2 % roots.length) ""

/-- C6 (amended): on naming-oracle failure, `generateConstellationName`
returns (never throws) a non-empty fallback name composed from the fixed
pool of prefix/root word pairs — the pair being selected by the random
draws — and a constellation is still created with its allocated identity
and the formula-derived reward. -/
theorem claim_C6 (r1 r2 r3 starCount : ℕ) :
    (∃ p ∈ prefixes, ∃ q ∈ roots,
        generateConstellationName OracleOutcome.failure r1 r2 r3 starCount
          = p ++ " " ++ q)
    ∧ generateConstellationName OracleOutcome.failure r1 r2 r3 starCount ≠ ""
    ∧ ∀ (now : ℕ) (st : RecState) (cluster : List String),
        overlapsOf st.constellations cluster = [] →
        (reconcileCluster
              (fun n => generateConstellationName OracleOutcome.failure r1 r2 r3 n)
              now st cluster).constellations
            = st.constellations ++
                [⟨st.nextId,
                  generateConstellationName OracleOutcome.failure r1 r2 r3
                    cluster.length, cluster, now⟩]
        ∧ (reconcileCluster
              (fun n => generateConstellationName OracleOutcome.failure r1 r2 r3 n)
              now st cluster).events
            = st.events ++
                [⟨generateConstellationName OracleOutcome.failure r1 r2 r3
                    cluster.length,
                  50 + cluster.length * 10, 20 + cluster.length * 5⟩] := by
  have hp : r1 % prefixes.length < prefixes.length := Nat.mod_lt _ (by decide)
  have hq : r2 % roots.length < roots.length := Nat.mod_lt _ (by decide)
  have hpe : prefixes.getD (r1 % prefixes.length) ""
      = prefixes[r1 % prefixes.length] := by
    rw [List.getD_eq_getElem?_getD, List.getElem?_eq_getElem hp]
    rfl
  have hqe : roots.getD (r2 % roots.length) ""
      = roots[r2 % roots.length] := by
    rw [List.getD_eq_getElem?_getD, List.getElem?_eq_getElem hq]
    rfl
  refine ⟨⟨prefixes[r1 % prefixes.length], List.getElem_mem hp,
      roots[r2 % roots.length], List.getElem_mem hq, ?_⟩, ?_, ?_⟩
  · show prefixes.getD (r1 % prefixes.length) ""
        ++ " " ++ roots.getD (r2 % roots.length) "" = _
    rw [hpe, hqe]
  · show prefixes.getD (r1 % prefixes.length) ""
        ++ " " ++ roots.getD (r2 % roots.length) "" ≠ ""
    intro he
    have hlen := congrArg String.length he
    rw [String.length_append, String.length_append] at hlen
    have h1 : (" " : String).length = 1 := by decide
    have h2 : ("" : String).length = 0 := by decide
    omega
  · intro now st cluster h
    rw [reconcileCluster_eq_create h]
    exact ⟨rfl, rfl⟩

/-- Witness for C6: with both random draws 0, the fallback name is
"Alpha Hydra", and creating from a 3-cluster with the failing oracle still
yields the 80/35 reward event carrying that name. -/
theorem claim_C6_witness :
    generateConstellationName OracleOutcome.failure 0 0 0 3 = "Alpha Hydra"
    ∧ overlapsOf ([] : List Constellation) ["A", "B", "C"] = []
    ∧ (reconcileCluster
          (fun n => generateConstellationName OracleOutcome.failure 0 0 0 n)
          7 ⟨[], 0, [], false⟩ ["A", "B", "C"]).events
        = [⟨"Alpha Hydra", 80, 35⟩] := by
  refine ⟨by decide, by decide, ?_⟩
  have h := (claim_C6 0 0 0 3).2.2 7 ⟨[], 0, [], false⟩ ["A", "B", "C"] (by decide)
  rw [h.2]
  decide

/-- Counterexample to C6 as frozen: the fallback name is not composed
deterministically — it depends on the `Math.random` draws, which are not
part of the function's declared input. -/
theorem claim_C6_counterexample :
    generateConstellationName OracleOutcome.failure 0 0 0 3
      ≠ generateConstellationName OracleOutcome.failure 1 1 0 3 := by
  decide

/-! ## Interleaved reconciliation passes -/

/-- C9 fails on the code: `checkForConstellations` is invoked directly from
the effect on `stars.length` with the constellation list captured at call
time, and nothing awaits a pending pass.  This theorem exhibits the
resulting divergence on the embedding: a first pass over bodies A,B,C and
a second pass over A,B,C,D that still observes the stale empty list (as
happens when it is triggered while the first pass awaits its naming call)
each emit a discovery event, and their created constellations share member
ids — the disjointness invariant is violated and the reward is granted
twice for the same bodies. -/
theorem claim_C9 :
    (checkForConstellations (fun _ => "N") 7 0 scenarioStars []).events.length = 1
    ∧ (checkForConstellations (fun _ => "M") 8 1
        [bodyA, bodyB, bodyC, bodyD] []).events.length = 1
    ∧ ∃ c1 ∈ (checkForConstellations (fun _ => "N") 7 0
          scenarioStars []).constellations,
        ∃ c2 ∈ (checkForConstellations (fun _ => "M") 8 1
            [bodyA, bodyB, bodyC, bodyD] []).constellations,
          ∃ x, x ∈ c1.starIds ∧ x ∈ c2.starIds := by
  decide

end Celestia
